import Mathlib

/-!
Verification development for the talk-tree-explorer repository: a shallow
embedding of its tree model, BFS/DFS traversal engines, focus state,
2D/3D layout engines and collision passes, together with theorems checking
the specified properties against these embeddings.

Numbers: JavaScript numeric values are modelled as rationals where the code
only uses field operations, `Math.max`/`Math.min`, and as reals where the
code calls `Math.sqrt`/`Math.cos`/`Math.sin`/`Math.atan2`/`Math.PI`.
-/

namespace TalkTree

/-- The tree model (`src/types.ts`): `{ node: string; weight?: number;
children?: KnowledgeNode[] }`.  An absent `children` field and an empty
array behave identically in every algorithm of the repository (both mean
"no children"), so both are modelled by the empty list.  The optional
`widgets` attachment list is carried by no algorithm treated here. -/
inductive KnowledgeNode : Type where
  | mk (node : String) (weight : Option ℚ) (children : List KnowledgeNode) : KnowledgeNode

/-- The `node` field: the display label. -/
def KnowledgeNode.node : KnowledgeNode → String
  | .mk s _ _ => s

/-- The optional `weight` field. -/
def KnowledgeNode.weight : KnowledgeNode → Option ℚ
  | .mk _ w _ => w

/-- The `children` field. -/
def KnowledgeNode.children : KnowledgeNode → List KnowledgeNode
  | .mk _ _ c => c

mutual
/-- Total number of nodes of a tree. -/
def size : KnowledgeNode → ℕ
  | .mk _ _ c => 1 + sizeList c

/-- Total number of nodes of a forest. -/
def sizeList : List KnowledgeNode → ℕ
  | [] => 0
  | t :: ts => size t + sizeList ts
end

@[simp] theorem size_mk (s : String) (w : Option ℚ) (c : List KnowledgeNode) :
    size (.mk s w c) = 1 + sizeList c := by
  rfl

@[simp] theorem sizeList_nil : sizeList [] = 0 := by
  rfl

@[simp] theorem sizeList_cons (t : KnowledgeNode) (ts : List KnowledgeNode) :
    sizeList (t :: ts) = size t + sizeList ts := by
  rfl

theorem size_eq (t : KnowledgeNode) : size t = 1 + sizeList t.children := by
  cases t
  rfl

theorem size_pos (t : KnowledgeNode) : 0 < size t := by
  rw [size_eq]
  omega

@[simp] theorem sizeList_append (l₁ l₂ : List KnowledgeNode) :
    sizeList (l₁ ++ l₂) = sizeList l₁ + sizeList l₂ := by
  induction l₁ with
  | nil => simp
  | cons t ts ih => simp [ih]; omega

theorem sizeList_flatMap_children (l : List KnowledgeNode) :
    sizeList (l.flatMap KnowledgeNode.children) + l.length = sizeList l := by
  induction l with
  | nil => simp
  | cons t ts ih =>
    simp only [List.flatMap_cons, sizeList_append, List.length_cons, sizeList_cons]
    rw [size_eq t]
    omega

theorem sizeList_flatMap_lt (q : List KnowledgeNode) (hq : q ≠ []) :
    sizeList (q.flatMap KnowledgeNode.children) < sizeList q := by
  have h := sizeList_flatMap_children q
  have hlen : q.length ≠ 0 := by
    intro hlen
    exact hq (List.length_eq_zero.mp hlen)
  omega

/-- BFS queue loop (`createBfsTraversal`, BFS focus-context variant): dequeue
the head, record its label, enqueue its children at the back. -/
def bfsAux : List KnowledgeNode → List String
  | [] => []
  | n :: rest => n.node :: bfsAux (rest ++ n.children)
termination_by q => sizeList q
decreasing_by
  simp only [sizeList_append, sizeList_cons, size_eq]
  omega

/-- `createBfsTraversal(data)`: level-order traversal by FIFO queue seeded
with the root (BFS variant of the focus context). -/
def createBfsTraversal (data : KnowledgeNode) : List String :=
  bfsAux [data]

/-- DFS stack loop (`createDfsTraversal` in `src/contexts/FocusContext.tsx`).
The JS array stack (top = array end, children pushed in reverse order) is
modelled with the list head as stack top, so pushing the children in reverse
onto the array end is prepending them in source order. -/
def dfsAux : List KnowledgeNode → List String
  | [] => []
  | n :: rest => n.node :: dfsAux (n.children ++ rest)
termination_by q => sizeList q
decreasing_by
  simp only [sizeList_append, sizeList_cons, size_eq]
  omega

/-- `createDfsTraversal(data)`: pre-order traversal by explicit stack. -/
def createDfsTraversal (data : KnowledgeNode) : List String :=
  dfsAux [data]

/-! Level-order reference listing, used to state what BFS must produce:
level `0` is the forest's roots left-to-right, level `d+1` is level `d` of
the concatenated child forests. -/

/-- Labels of a forest grouped by depth: the heads first, then the levels of
all children appended left-to-right. -/
def levelsList (q : List KnowledgeNode) : List (List String) :=
  match q with
  | [] => []
  | n :: rest => ((n :: rest).map KnowledgeNode.node) ::
      levelsList ((n :: rest).flatMap KnowledgeNode.children)
termination_by sizeList q
decreasing_by
  exact sizeList_flatMap_lt _ (by simp)

/-- The depth-`d` slice of a forest: the nodes at depth `d` below the roots,
in left-to-right order. -/
def forestAtDepth (q : List KnowledgeNode) : ℕ → List KnowledgeNode
  | 0 => q
  | d + 1 => forestAtDepth (q.flatMap KnowledgeNode.children) d

theorem forestAtDepth_nil : ∀ d, forestAtDepth [] d = [] := by
  intro d
  induction d with
  | zero => rfl
  | succ d ih => simpa [forestAtDepth] using ih

theorem levelsList_nil : levelsList [] = [] := by
  rw [levelsList]

theorem levelsList_eq (q : List KnowledgeNode) (hq : q ≠ []) :
    levelsList q = (q.map KnowledgeNode.node) ::
      levelsList (q.flatMap KnowledgeNode.children) := by
  cases q with
  | nil => exact absurd rfl hq
  | cons n rest => rw [levelsList]

theorem bfsAux_nil : bfsAux [] = [] := by
  rw [bfsAux]

theorem bfsAux_cons (n : KnowledgeNode) (rest : List KnowledgeNode) :
    bfsAux (n :: rest) = n.node :: bfsAux (rest ++ n.children) := by
  rw [bfsAux]

/-- Queue rotation invariant of the BFS loop: the front segment is emitted
first and its children move to the back of the queue. -/
theorem bfsAux_append (q₁ : List KnowledgeNode) :
    ∀ q₂, bfsAux (q₁ ++ q₂) =
      q₁.map KnowledgeNode.node ++ bfsAux (q₂ ++ q₁.flatMap KnowledgeNode.children) := by
  induction q₁ with
  | nil => intro q₂; simp
  | cons n rest ih =>
    intro q₂
    rw [List.cons_append, bfsAux_cons, List.append_assoc, ih (q₂ ++ n.children)]
    simp

theorem bfsAux_levels (q : List KnowledgeNode) :
    bfsAux q = q.map KnowledgeNode.node ++ bfsAux (q.flatMap KnowledgeNode.children) := by
  have h := bfsAux_append q []
  simpa using h

/-- The BFS queue loop emits exactly the flattened level-order listing. -/
theorem bfsAux_eq_levels_flatten (q : List KnowledgeNode) :
    bfsAux q = (levelsList q).flatten := by
  by_cases hq : q = []
  · subst hq; rw [bfsAux_nil, levelsList_nil]; rfl
  · rw [levelsList_eq q hq, List.flatten_cons, bfsAux_levels q,
      bfsAux_eq_levels_flatten (q.flatMap KnowledgeNode.children)]
termination_by sizeList q
decreasing_by
  exact sizeList_flatMap_lt _ hq

theorem bfsAux_length (q : List KnowledgeNode) :
    (bfsAux q).length = sizeList q := by
  by_cases hq : q = []
  · subst hq; rw [bfsAux_nil]; rfl
  · rw [bfsAux_levels q]
    have h := sizeList_flatMap_children q
    have hlen : q.length ≠ 0 := by
      intro hlen
      exact hq (List.length_eq_zero.mp hlen)
    rw [List.length_append, List.length_map,
      bfsAux_length (q.flatMap KnowledgeNode.children)]
    omega
termination_by sizeList q
decreasing_by
  exact sizeList_flatMap_lt _ hq

theorem levelsList_getD (d : ℕ) :
    ∀ q : List KnowledgeNode,
      (levelsList q).getD d [] = (forestAtDepth q d).map KnowledgeNode.node := by
  induction d with
  | zero =>
    intro q
    cases hq : q with
    | nil => simp [levelsList_nil, forestAtDepth]
    | cons n rest => rw [levelsList_eq _ (by simp)]; simp [forestAtDepth]
  | succ d ih =>
    intro q
    cases hq : q with
    | nil =>
      simp [levelsList_nil, forestAtDepth, forestAtDepth_nil]
    | cons n rest =>
      rw [levelsList_eq _ (by simp)]
      simp only [List.getD_cons_succ, forestAtDepth]
      exact ih _

/-- C1. The BFS traversal (`createBfsTraversal`) returns exactly the
level-order listing of all node labels: it is the flattening of the
depth-indexed level slices (so every depth-`d` label appears before every
depth-`d+1` label, children left-to-right within a level), its length is the
total node count, and the root's label comes first. -/
theorem bfs_is_level_order (t : KnowledgeNode) :
    createBfsTraversal t = (levelsList [t]).flatten
    ∧ (∀ d, (levelsList [t]).getD d [] = (forestAtDepth [t] d).map KnowledgeNode.node)
    ∧ (createBfsTraversal t).length = size t
    ∧ (createBfsTraversal t).head? = some t.node := by
  refine ⟨bfsAux_eq_levels_flatten [t], fun d => levelsList_getD d [t], ?_, ?_⟩
  · rw [createBfsTraversal, bfsAux_length]
    simp
  · rw [createBfsTraversal, bfsAux_cons]
    rfl

/-! DFS: pre-order characterization and subtree contiguity. -/

theorem dfsAux_nil : dfsAux [] = [] := by
  rw [dfsAux]

theorem dfsAux_cons (n : KnowledgeNode) (rest : List KnowledgeNode) :
    dfsAux (n :: rest) = n.node :: dfsAux (n.children ++ rest) := by
  rw [dfsAux]

theorem dfsAux_append (q₁ q₂ : List KnowledgeNode) :
    dfsAux (q₁ ++ q₂) = dfsAux q₁ ++ dfsAux q₂ := by
  cases hq : q₁ with
  | nil => simp [dfsAux_nil]
  | cons n rest =>
    rw [List.cons_append, dfsAux_cons, dfsAux_cons, ← List.append_assoc,
      dfsAux_append (n.children ++ rest) q₂]
    simp
termination_by sizeList q₁
decreasing_by
  simp only [sizeList_append, sizeList_cons, size_eq]
  omega

/-- The stack-based DFS is pre-order: root's label first, then the full
subtree listing of each child, left-to-right. -/
theorem createDfsTraversal_eq (t : KnowledgeNode) :
    createDfsTraversal t = t.node :: t.children.flatMap createDfsTraversal := by
  rw [createDfsTraversal, dfsAux_cons, List.append_nil]
  congr 1
  induction t.children with
  | nil => simp [dfsAux_nil]
  | cons c cs ih =>
    rw [List.flatMap_cons, ← ih]
    have h2 := dfsAux_append [c] cs
    simp only [List.singleton_append] at h2
    rw [h2]
    rfl

theorem dfsAux_length (q : List KnowledgeNode) :
    (dfsAux q).length = sizeList q := by
  cases hq : q with
  | nil => rw [dfsAux_nil]; rfl
  | cons n rest =>
    rw [dfsAux_cons]
    have ih := dfsAux_length (n.children ++ rest)
    simp only [List.length_cons, ih, sizeList_append, sizeList_cons, size_eq]
    omega
termination_by sizeList q
decreasing_by
  simp only [sizeList_append, sizeList_cons, size_eq]
  omega

theorem createDfsTraversal_length (t : KnowledgeNode) :
    (createDfsTraversal t).length = size t := by
  rw [createDfsTraversal, dfsAux_length]
  simp

/-- Address a node of the tree by its path of child indices from the root. -/
def subtreeAt (t : KnowledgeNode) : List ℕ → Option KnowledgeNode
  | [] => some t
  | i :: p =>
    match t.children.get? i with
    | some c => subtreeAt c p
    | none => none

theorem list_split_of_get? {α : Type} {l : List α} {i : ℕ} {c : α}
    (h : l.get? i = some c) : ∃ l₁ l₂, l = l₁ ++ c :: l₂ ∧ l₁.length = i := by
  induction l generalizing i with
  | nil => simp at h
  | cons a as ih =>
    cases i with
    | zero =>
      rw [List.get?_cons_zero] at h
      cases h
      exact ⟨[], as, rfl, rfl⟩
    | succ j =>
      rw [List.get?_cons_succ] at h
      obtain ⟨l₁, l₂, hl, hlen⟩ := ih h
      exact ⟨a :: l₁, l₂, by simp [hl], by simp [hlen]⟩

/-- DFS subtree contiguity: the labels of the subtree rooted at any node
occupy a contiguous block of the DFS order, beginning with that node's own
label. -/
theorem dfs_subtree_contiguous (t : KnowledgeNode) :
    ∀ (p : List ℕ) (s : KnowledgeNode), subtreeAt t p = some s →
      ∃ pre post, createDfsTraversal t = pre ++ createDfsTraversal s ++ post ∧
        (createDfsTraversal t).get? pre.length = some s.node := by
  intro p
  induction p generalizing t with
  | nil =>
    intro s hs
    simp only [subtreeAt] at hs
    cases hs
    refine ⟨[], [], by simp, ?_⟩
    rw [createDfsTraversal_eq]
    rfl
  | cons i p ih =>
    intro s hs
    simp only [subtreeAt] at hs
    cases hget : t.children.get? i with
    | none => rw [hget] at hs; cases hs
    | some c =>
      rw [hget] at hs
      obtain ⟨pre', post', heq, hidx⟩ := ih c s hs
      obtain ⟨l₁, l₂, hl, hlen⟩ := list_split_of_get? hget
      refine ⟨t.node :: l₁.flatMap createDfsTraversal ++ pre',
        post' ++ l₂.flatMap createDfsTraversal, ?_, ?_⟩
      · rw [createDfsTraversal_eq, hl]
        simp only [List.flatMap_append, List.flatMap_cons, heq]
        simp
      · rw [createDfsTraversal_eq, hl]
        simp only [List.flatMap_append, List.flatMap_cons, heq]
        have hsplit :
            t.node :: (l₁.flatMap createDfsTraversal ++
              ((pre' ++ createDfsTraversal s ++ post') ++ l₂.flatMap createDfsTraversal)) =
            (t.node :: l₁.flatMap createDfsTraversal ++ pre') ++
              (createDfsTraversal s ++ (post' ++ l₂.flatMap createDfsTraversal)) := by
          simp
        rw [hsplit, List.get?_append_right (by simp), ]
        simp only [List.length_cons, List.length_append, Nat.sub_self]
        have : (t.node :: l₁.flatMap createDfsTraversal ++ pre').length =
            1 + (l₁.flatMap createDfsTraversal).length + pre'.length := by
          simp
          omega
        rw [createDfsTraversal_eq s]
        rfl

/-- C2. The DFS traversal (`createDfsTraversal`) is exactly the pre-order
listing of all node labels: root's label first, each child's full subtree
completed left-to-right before the next sibling, the length is the total
node count, and every node's subtree labels occupy a contiguous block of
the order starting at that node's own position. -/
theorem dfs_is_preorder (t : KnowledgeNode) :
    createDfsTraversal t = t.node :: t.children.flatMap createDfsTraversal
    ∧ (createDfsTraversal t).length = size t
    ∧ ∀ (p : List ℕ) (s : KnowledgeNode), subtreeAt t p = some s →
        ∃ pre post, createDfsTraversal t = pre ++ createDfsTraversal s ++ post ∧
          (createDfsTraversal t).get? pre.length = some s.node :=
  ⟨createDfsTraversal_eq t, createDfsTraversal_length t, dfs_subtree_contiguous t⟩

/-- Concrete tree of spec scenario 10: `Root → [A, B]`, `A → [A1]`. -/
def sampleTree : KnowledgeNode :=
  .mk "Root" none [.mk "A" none [.mk "A1" none []], .mk "B" none []]

/-- Witness: `dfs_is_preorder` applied to the scenario-10 tree at the path
`[0]` (the child `A`), discharging the `subtreeAt` hypothesis there. -/
theorem dfs_is_preorder_witness :
    ∃ pre post, createDfsTraversal sampleTree =
        pre ++ createDfsTraversal (.mk "A" none [.mk "A1" none []]) ++ post ∧
      (createDfsTraversal sampleTree).get? pre.length = some "A" :=
  (dfs_is_preorder sampleTree).2.2 [0] (.mk "A" none [.mk "A1" none []]) rfl

/-! Focus state (`FocusContext.tsx`, both the BFS and the DFS variant carry
the same stepping logic): focused label, focus source, traversal order and
current index. The index is a JS number starting at `-1`; `%` is JS's
truncating remainder, `Int.tmod`. -/

/-- The `focusSource` view tag: `'graph2d' | 'graph3d'`. -/
inductive FocusSource : Type where
  | graph2d : FocusSource
  | graph3d : FocusSource
deriving DecidableEq, Repr

/-- The focus-context state: `focusedNodeLabel`, `focusSource`, the traversal
order (`bfsTraversal` / `dfsTraversal`) and the current index
(`currentBfsIndex` / `currentDfsIndex`). -/
structure FocusState : Type where
  focusedNodeLabel : Option String
  focusSource : Option FocusSource
  traversal : List String
  currentIndex : ℤ
deriving DecidableEq, Repr

/-- JS array indexing `arr[i]` with an integer index: the element when
`0 ≤ i < length`, `undefined` (none) otherwise. -/
def jsArrayGet (l : List String) (i : ℤ) : Option String :=
  if 0 ≤ i then l.get? i.toNat else none

/-- `initializeBfsTraversal(data)`: recompute the order, reset the index. -/
def initializeBfsTraversal (data : KnowledgeNode) (s : FocusState) : FocusState :=
  { s with traversal := createBfsTraversal data, currentIndex := -1 }

/-- `initializeDfsTraversal(data)` of the DFS variant. -/
def initializeDfsTraversal (data : KnowledgeNode) (s : FocusState) : FocusState :=
  { s with traversal := createDfsTraversal data, currentIndex := -1 }

/-- `focusNextNode()`: no-op on an empty order; otherwise advance the index
by one modulo the length (JS `%`), focus the label at the new index, and
attribute the focus to the 3D view. -/
def focusNextNode (s : FocusState) : FocusState :=
  if s.traversal.length = 0 then s
  else
    let nextIndex : ℤ := (s.currentIndex + 1).tmod (s.traversal.length : ℤ)
    { s with
      currentIndex := nextIndex
      focusedNodeLabel := jsArrayGet s.traversal nextIndex
      focusSource := some .graph3d }

/-- `focusPreviousNode()` (DFS variant): no-op on an empty order; otherwise
step the index back, wrapping `≤ 0` to `length - 1`. -/
def focusPreviousNode (s : FocusState) : FocusState :=
  if s.traversal.length = 0 then s
  else
    let prevIndex : ℤ :=
      if s.currentIndex ≤ 0 then (s.traversal.length : ℤ) - 1 else s.currentIndex - 1
    { s with
      currentIndex := prevIndex
      focusedNodeLabel := jsArrayGet s.traversal prevIndex
      focusSource := some .graph3d }

/-- A freshly initialized two-entry traversal state (index `-1`). -/
def twoEntryState : FocusState :=
  { focusedNodeLabel := none, focusSource := none
    traversal := ["a", "b"], currentIndex := -1 }

/-- C3, counterexample. With a two-entry order and the index starting at
`-1`, calling `focusNextNode` exactly `traversalOrder.length = 2` times
leaves the index at `1`, not `0`: the claim's "full wrap after exactly
`length` calls returns the index to 0" fails on the code. -/
theorem step_forward_two_calls_not_zero :
    twoEntryState.currentIndex = -1 ∧ twoEntryState.traversal.length = 2 ∧
      (focusNextNode (focusNextNode twoEntryState)).currentIndex = 1 ∧
      ((focusNextNode (focusNextNode twoEntryState)).currentIndex ≠ 0) := by
  refine ⟨rfl, rfl, ?_, ?_⟩ <;> decide

theorem focusNextNode_index (s : FocusState) (hne : s.traversal ≠ [])
    (hcur : -1 ≤ s.currentIndex) :
    (focusNextNode s).currentIndex = (s.currentIndex + 1) % (s.traversal.length : ℤ)
    ∧ (focusNextNode s).traversal = s.traversal := by
  have hlen : s.traversal.length ≠ 0 := by
    intro h
    exact hne (List.length_eq_zero.mp h)
  rw [focusNextNode, if_neg hlen]
  refine ⟨?_, rfl⟩
  exact Int.tmod_eq_emod (by omega) (by positivity)

/-- C3, amended. Starting from index `-1` on a non-empty order of length
`n`, the `k`-th `focusNextNode` call (k ≥ 1) leaves the index at
`(k - 1) mod n`: each call increments the index modulo `n`, the first call
lands on `0`, after exactly `n` calls the index is `n - 1` (each entry
visited once), and the index first returns to `0` on call `n + 1`. -/
theorem step_forward_wrap (fl : Option String) (fs : Option FocusSource)
    (order : List String) (hne : order ≠ []) :
    (∀ k : ℕ, 1 ≤ k →
      (focusNextNode^[k] ⟨fl, fs, order, -1⟩).currentIndex =
        ((k : ℤ) - 1) % (order.length : ℤ))
    ∧ (focusNextNode^[order.length] ⟨fl, fs, order, -1⟩).currentIndex =
        (order.length : ℤ) - 1
    ∧ (focusNextNode^[order.length + 1] ⟨fl, fs, order, -1⟩).currentIndex = 0 := by
  have hlen : 0 < order.length := List.length_pos.mpr hne
  have hmain : ∀ k : ℕ, 1 ≤ k →
      (focusNextNode^[k] ⟨fl, fs, order, -1⟩).currentIndex =
        ((k : ℤ) - 1) % (order.length : ℤ)
      ∧ (focusNextNode^[k] ⟨fl, fs, order, -1⟩).traversal = order := by
    intro k hk
    induction k with
    | zero => omega
    | succ k ih =>
      rcases Nat.eq_or_lt_of_le hk with hk1 | hk2
      · have hk0 : k = 0 := by omega
        subst hk0
        rw [Function.iterate_one]
        have h := focusNextNode_index ⟨fl, fs, order, -1⟩ hne (by norm_num)
        refine ⟨?_, h.2⟩
        rw [h.1]
        norm_num
      · have hk' : 1 ≤ k := by omega
        obtain ⟨ihi, iht⟩ := ih hk'
        rw [Function.iterate_succ_apply']
        have hnn : (0 : ℤ) ≤ ((k : ℤ) - 1) % (order.length : ℤ) :=
          Int.emod_nonneg _ (by omega)
        have h := focusNextNode_index (focusNextNode^[k] ⟨fl, fs, order, -1⟩)
          (by rw [iht]; exact hne) (by rw [ihi]; omega)
        rw [iht] at h
        refine ⟨?_, h.2⟩
        rw [h.1, ihi]
        have hsplit : ((k : ℤ) - 1) % (order.length : ℤ) + 1 + (((k : ℤ) - 1) / (order.length : ℤ)) * (order.length : ℤ) = (k : ℤ) := by
          rw [Int.emod_def]
          ring
        have hRHS : (((k + 1 : ℕ) : ℤ)) - 1 = (k : ℤ) := by push_cast; ring
        conv_rhs => rw [hRHS, ← hsplit, Int.add_mul_emod_self]
  refine ⟨fun k hk => (hmain k hk).1, ?_, ?_⟩
  · rw [(hmain order.length (by omega)).1]
    rw [Int.emod_eq_of_lt (by omega) (by omega)]
  · rw [(hmain (order.length + 1) (by omega)).1]
    push_cast
    simp

/-- Witness for `step_forward_wrap`: on the two-entry order, the third call
(length + 1) brings the index back to `0`. -/
theorem step_forward_wrap_witness :
    (focusNextNode^[3] ⟨none, none, ["a", "b"], -1⟩).currentIndex = 0 := by
  have h := (step_forward_wrap none none ["a", "b"] (by decide)).2.2
  simpa using h

/-- C8. `focusNextNode` and `focusPreviousNode` leave the whole focus state
unchanged when the traversal order is empty; on a non-empty order both set
`focusSource` to the 3D-view tag and set `focusedNodeLabel` to the order
entry at the new `currentIndex` (a present entry whenever the previous
index was in the reachable range `[-1, length)`). -/
theorem step_ops_noop_or_focus (s : FocusState) :
    (s.traversal = [] → focusNextNode s = s ∧ focusPreviousNode s = s)
    ∧ (s.traversal ≠ [] →
        (focusNextNode s).focusSource = some FocusSource.graph3d
        ∧ (focusPreviousNode s).focusSource = some FocusSource.graph3d
        ∧ (focusNextNode s).focusedNodeLabel =
            jsArrayGet s.traversal (focusNextNode s).currentIndex
        ∧ (focusPreviousNode s).focusedNodeLabel =
            jsArrayGet s.traversal (focusPreviousNode s).currentIndex
        ∧ (-1 ≤ s.currentIndex → s.currentIndex < (s.traversal.length : ℤ) →
            (focusNextNode s).focusedNodeLabel.isSome
            ∧ (focusPreviousNode s).focusedNodeLabel.isSome)) := by
  constructor
  · intro h
    rw [focusNextNode, focusPreviousNode]
    simp [h]
  · intro hne
    have hlen : s.traversal.length ≠ 0 := by
      intro h
      exact hne (List.length_eq_zero.mp h)
    rw [focusNextNode, focusPreviousNode, if_neg hlen, if_neg hlen]
    refine ⟨rfl, rfl, rfl, rfl, ?_⟩
    intro hlo hhi
    have hpos : (0 : ℤ) < (s.traversal.length : ℤ) := by omega
    have hget : ∀ i : ℤ, 0 ≤ i → i < (s.traversal.length : ℤ) →
        (jsArrayGet s.traversal i).isSome := by
      intro i h0 h1
      rw [jsArrayGet, if_pos h0]
      have : i.toNat < s.traversal.length := by omega
      rw [List.get?_eq_get this]
      rfl
    constructor
    · have he : (s.currentIndex + 1).tmod (s.traversal.length : ℤ) =
          (s.currentIndex + 1) % (s.traversal.length : ℤ) :=
        Int.tmod_eq_emod (by omega) (by omega)
      simp only [he]
      exact hget _ (Int.emod_nonneg _ (by omega)) (Int.emod_lt_of_pos _ hpos)
    · by_cases hc : s.currentIndex ≤ 0
      · simp only [if_pos hc]
        exact hget _ (by omega) (by omega)
      · simp only [if_neg hc]
        exact hget _ (by omega) (by omega)

/-- Witness for `step_ops_noop_or_focus`: on a one-entry order at index
`-1`, stepping forward focuses a present entry and tags the 3D view; on an
empty order both operations are the identity. -/
theorem step_ops_noop_or_focus_witness :
    (focusNextNode ⟨none, none, ["a"], -1⟩).focusSource = some FocusSource.graph3d
    ∧ (focusNextNode ⟨none, none, ["a"], -1⟩).focusedNodeLabel.isSome
    ∧ focusNextNode ⟨none, none, [], -1⟩ = ⟨none, none, [], -1⟩ := by
  have h := (step_ops_noop_or_focus ⟨none, none, ["a"], -1⟩).2 (by decide)
  have h0 := (step_ops_noop_or_focus ⟨none, none, [], -1⟩).1 rfl
  exact ⟨h.1, (h.2.2.2.2 (by norm_num) (by norm_num)).1, h0.1⟩

/-! Click-to-focus toggling.  The 2D node click handler
(`KnowledgeNodeComponent`) toggles by label on the shared focus context;
the 3D click handler (`GraphScene.handleNodeClick`) toggles by node id and
mirrors the result into the context. -/

/-- 2D node click (`handleNodeClick` in the ReactFlow `KnowledgeTree`):
clicking the focused label clears focus, otherwise focuses the label with
source `'graph2d'`. -/
def handleNodeClick2D (label : String) (s : FocusState) : FocusState :=
  if s.focusedNodeLabel = some label then
    { s with focusedNodeLabel := none, focusSource := none }
  else
    { s with focusedNodeLabel := some label, focusSource := some .graph2d }

/-- A positioned 3D node (`Node3D` in `Graph3D.tsx`): id counter `n3-k`
modelled by its number `k`. -/
structure Node3D : Type where
  id : ℕ
  label : String
  weight : Option ℚ
  position : ℝ × ℝ × ℝ

/-- A 3D edge (`Edge3D`). -/
structure Edge3D : Type where
  source : ℕ
  target : ℕ

/-- A JS `Map` built by inserting key/value pairs in order: a later insert
for the same key overwrites an earlier one. -/
def buildMap {κ ν : Type} [DecidableEq κ] (pairs : List (κ × ν)) : κ → Option ν :=
  pairs.foldl (fun f p => fun k => if k = p.1 then some p.2 else f k) (fun _ => none)

/-- `idToNode`: `new Map(nodes.map(n => [n.id, n]))`. -/
def idToNode (nodes : List Node3D) : ℕ → Option Node3D :=
  buildMap (nodes.map fun n => (n.id, n))

/-- `labelToId` (`Graph3D.tsx`): nodes inserted in layout order, so of two
nodes sharing a label the later one's id wins. -/
def labelToId (nodes : List Node3D) : String → Option ℕ :=
  buildMap (nodes.map fun n => (n.label, n.id))

/-- 3D node click (`handleNodeClick` in `GraphScene`): looks the id up,
returns unchanged if absent; clicking the focused id clears `focusId` and
the shared focus, otherwise sets `focusId` and focuses the node's label
with source `'graph3d'`. -/
def handleNodeClick3D (nodes : List Node3D) (id : ℕ) (st : Option ℕ × FocusState) :
    Option ℕ × FocusState :=
  match idToNode nodes id with
  | none => st
  | some clicked =>
    if st.1 = some id then
      (none, { st.2 with focusedNodeLabel := none, focusSource := none })
    else
      (some id, { st.2 with focusedNodeLabel := some clicked.label,
                            focusSource := some .graph3d })

/-- C9, counterexample. Toggling label `"B"` twice from a state focused on
`"A"` ends with focus cleared, not restored to `"A"`: double-toggle does
not return every starting focus state to itself. -/
theorem toggle_twice_not_identity :
    handleNodeClick2D "B" (handleNodeClick2D "B"
        ⟨some "A", some FocusSource.graph3d, [], -1⟩) ≠
      ⟨some "A", some FocusSource.graph3d, [], -1⟩ := by
  decide

/-- C9, amended. Toggling twice with the same argument restores the focus
state exactly when the state is fully unfocused or already focused on that
label with the toggling view's source tag: in general the 2D double-toggle
maps a state focused on `L` to (`L`, `'graph2d'`) and every other state to
cleared focus, and the 3D double-click by id behaves analogously, so the
round trip holds for the unfocused state and the matching-source focused
state only. -/
theorem toggle_twice_characterization (L : String) (s : FocusState)
    (nodes : List Node3D) (id : ℕ) (st : Option ℕ × FocusState) :
    (handleNodeClick2D L (handleNodeClick2D L s) =
      if s.focusedNodeLabel = some L then
        { s with focusedNodeLabel := some L, focusSource := some .graph2d }
      else
        { s with focusedNodeLabel := none, focusSource := none })
    ∧ (handleNodeClick2D L (handleNodeClick2D L s) = s ↔
        ((s.focusedNodeLabel = some L ∧ s.focusSource = some .graph2d) ∨
         (s.focusedNodeLabel = none ∧ s.focusSource = none)))
    ∧ (handleNodeClick3D nodes id (handleNodeClick3D nodes id st) =
        match idToNode nodes id with
        | none => st
        | some clicked =>
          if st.1 = some id then
            (some id, { st.2 with focusedNodeLabel := some clicked.label,
                                  focusSource := some .graph3d })
          else
            (none, { st.2 with focusedNodeLabel := none, focusSource := none })) := by
  refine ⟨?_, ?_, ?_⟩
  · by_cases h : s.focusedNodeLabel = some L
    · simp [handleNodeClick2D, h]
    · simp [handleNodeClick2D, h]
  · cases s with
    | mk fl fs tr ci =>
      by_cases h : fl = some L
      · simp only [handleNodeClick2D, h] at *
        simp [FocusState.mk.injEq, h]
        tauto
      · simp only [handleNodeClick2D] at *
        simp [FocusState.mk.injEq, h]
        tauto
  · cases hl : idToNode nodes id with
    | none => simp [handleNodeClick3D, hl]
    | some clicked =>
      by_cases h : st.1 = some id
      · simp [handleNodeClick3D, hl, h]
      · simp [handleNodeClick3D, hl, h]

/-! Weight-to-radius mappings.  `RF2D` models the ReactFlow 2D view
(`convertTreeToReactFlow`), `SVG2D` the SVG 2D view (`layoutTree`). -/

namespace RF2D

/-- `weightToRadius` of the ReactFlow 2D view: absent weight (the code's
`undefined`/`NaN` branch) gives `25`; otherwise the weight is clamped to
`[1, 100]` and mapped linearly onto `[15, 40]` px. -/
def weightToRadius (w : Option ℚ) : ℚ :=
  match w with
  | none => 25
  | some w => 15 + (max 1 (min 100 w) - 1) / 99 * 35

end RF2D

namespace SVG2D

/-- `weightToRadius` of the SVG 2D view, parameterized by the view's
`sizeRange = [minR, maxR]` (called with `[12, 28]`): absent weight (the
`undefined`/`NaN` branch) gives `minR`; otherwise the weight is clamped to
`[1, 10]` and mapped linearly onto `[minR, maxR]`. -/
def weightToRadius (sizeRange : ℚ × ℚ) (w : Option ℚ) : ℚ :=
  match w with
  | none => sizeRange.1
  | some w => sizeRange.1 + (max 1 (min 10 w) - 1) / 9 * (sizeRange.2 - sizeRange.1)

end SVG2D

/-- C10. Both weight-to-radius mappings are monotone non-decreasing in the
weight, clamp out-of-range weights to the supported range (`[1, 100]` for
the ReactFlow view, `[1, 10]` for the SVG view), and give an absent weight
a default radius in the low-to-mid part of the bounded range (`25` in
`[15, 27.5]` for the ReactFlow view; `minR` for the SVG view). -/
theorem weight_to_radius_monotone :
    (∀ w₁ w₂ : ℚ, w₁ < w₂ →
        RF2D.weightToRadius (some w₁) ≤ RF2D.weightToRadius (some w₂))
    ∧ (∀ w : ℚ, 100 < w →
        RF2D.weightToRadius (some w) = RF2D.weightToRadius (some 100))
    ∧ (∀ w : ℚ, w < 1 →
        RF2D.weightToRadius (some w) = RF2D.weightToRadius (some 1))
    ∧ (RF2D.weightToRadius none = 25
        ∧ RF2D.weightToRadius (some 1) ≤ 25
        ∧ 25 ≤ (RF2D.weightToRadius (some 1) + RF2D.weightToRadius (some 100)) / 2)
    ∧ (∀ minR maxR : ℚ, minR ≤ maxR →
        (∀ w₁ w₂ : ℚ, w₁ < w₂ →
            SVG2D.weightToRadius (minR, maxR) (some w₁) ≤
              SVG2D.weightToRadius (minR, maxR) (some w₂))
        ∧ (∀ w : ℚ, 10 < w →
            SVG2D.weightToRadius (minR, maxR) (some w) =
              SVG2D.weightToRadius (minR, maxR) (some 10))
        ∧ (∀ w : ℚ, w < 1 →
            SVG2D.weightToRadius (minR, maxR) (some w) =
              SVG2D.weightToRadius (minR, maxR) (some 1))
        ∧ SVG2D.weightToRadius (minR, maxR) none = minR
        ∧ minR ≤ (minR + maxR) / 2) := by
  refine ⟨?_, ?_, ?_, ⟨rfl, by norm_num [RF2D.weightToRadius], by norm_num [RF2D.weightToRadius]⟩, ?_⟩
  · intro w₁ w₂ h
    have hc : max 1 (min 100 w₁) ≤ max 1 (min 100 w₂) :=
      max_le_max le_rfl (min_le_min le_rfl h.le)
    simp only [RF2D.weightToRadius]
    linarith
  · intro w h
    simp only [RF2D.weightToRadius]
    rw [min_eq_left (by linarith : (100 : ℚ) ≤ w), min_self]
  · intro w h
    simp only [RF2D.weightToRadius]
    rw [min_eq_right (by linarith : w ≤ (100 : ℚ)),
      max_eq_left (by linarith : w ≤ (1 : ℚ)),
      min_eq_right (by norm_num : (1 : ℚ) ≤ (100 : ℚ)), max_self]
  · intro minR maxR hmm
    refine ⟨?_, ?_, ?_, rfl, by linarith⟩
    · intro w₁ w₂ h
      have hc : max 1 (min 10 w₁) ≤ max 1 (min 10 w₂) :=
        max_le_max le_rfl (min_le_min le_rfl h.le)
      simp only [SVG2D.weightToRadius]
      have h9 : (max 1 (min 10 w₁) - 1) / 9 ≤ (max 1 (min 10 w₂) - 1) / 9 := by
        apply div_le_div_of_nonneg_right ?_ (by norm_num)
        linarith
      have := mul_le_mul_of_nonneg_right h9 (by linarith : (0 : ℚ) ≤ maxR - minR)
      linarith
    · intro w h
      simp only [SVG2D.weightToRadius]
      rw [min_eq_left (by linarith : (10 : ℚ) ≤ w), min_self]
    · intro w h
      simp only [SVG2D.weightToRadius]
      rw [min_eq_right (by linarith : w ≤ (10 : ℚ)),
        max_eq_left (by linarith : w ≤ (1 : ℚ)),
        min_eq_right (by norm_num : (1 : ℚ) ≤ (10 : ℚ)), max_self]

/-- Witness for `weight_to_radius_monotone`: concrete weights `2 < 3`, an
out-of-range weight `200`, and the SVG view's actual `sizeRange` `[12, 28]`. -/
theorem weight_to_radius_monotone_witness :
    RF2D.weightToRadius (some 2) ≤ RF2D.weightToRadius (some 3)
    ∧ RF2D.weightToRadius (some 200) = RF2D.weightToRadius (some 100)
    ∧ SVG2D.weightToRadius (12, 28) none = 12
    ∧ SVG2D.weightToRadius (12, 28) (some 2) ≤ SVG2D.weightToRadius (12, 28) (some 3) := by
  have h := weight_to_radius_monotone
  have h5 := h.2.2.2.2 12 28 (by norm_num)
  exact ⟨h.1 2 3 (by norm_num), h.2.1 200 (by norm_num), h5.2.2.2.1,
    h5.1 2 3 (by norm_num)⟩

/-! Pre-order node depths, used to state the 3D layer invariant: entry `k`
of `subtreeDepths t` is the depth (relative to `t`) of the `k`-th node in
pre-order/creation order. -/

mutual
/-- Depths of a subtree's nodes in pre-order: the root at `0`, then each
child's subtree shifted one level down. -/
def subtreeDepths : KnowledgeNode → List ℕ
  | n => 0 :: (depthsList n.children).map (· + 1)
termination_by n => 2 * size n
decreasing_by
  simp only [size_eq]
  omega

/-- Depths of a forest's nodes, tree by tree. -/
def depthsList : List KnowledgeNode → List ℕ
  | [] => []
  | c :: rest => subtreeDepths c ++ depthsList rest
termination_by l => 2 * sizeList l + 1
decreasing_by
  · simp only [sizeList_cons, size_eq]
    omega
  · simp only [sizeList_cons, size_eq]
    omega
end

/-! 3D layout, adaptive variant (`build3DLayout` in `Graph3D.tsx`).
Positions are reals (the code uses `Math.sqrt`, `Math.cos`, `Math.sin`,
`Math.atan2`, `Math.PI`); `Math.random()` is modelled as a stream
`rand : ℕ → ℝ` consumed at an explicit cursor.  `Math.cos/sin (atan2 dy dx)`
is embedded as `(dx, dy) / hypot` for `(dx, dy) ≠ (0, 0)` and as `(1, 0)`
at the origin, exactly the values JS produces (`atan2(0,0) = 0`). -/

namespace Graph3DMain

/-- `layerDistance`: distance between depth layers. -/
def layerDistance : ℝ := 15

/-- `minNodeDistance`: minimum distance between any two nodes. -/
def minNodeDistance : ℝ := 4

/-- `baseRadius`: base sibling-circle radius. -/
def baseRadius : ℝ := 6

/-- `calculateOptimalRadius(nodeCount, minDistance)`. -/
noncomputable def calculateOptimalRadius (nodeCount : ℕ) (minDistance : ℝ) : ℝ :=
  if nodeCount ≤ 1 then 0
  else max baseRadius ((nodeCount * minDistance * 2) / (2 * Real.pi))

/-- Euclidean distance of two positions (`Math.sqrt(dx*dx+dy*dy+dz*dz)`). -/
noncomputable def dist3 (p q : ℝ × ℝ × ℝ) : ℝ :=
  Real.sqrt ((p.1 - q.1) ^ 2 + (p.2.1 - q.2.1) ^ 2 + (p.2.2 - q.2.2) ^ 2)

/-- The collision scan of the retry loop: the first already-placed node
closer than `minNodeDistance`. -/
noncomputable def findCollision (nodes : List Node3D) (pos : ℝ × ℝ × ℝ) : Option Node3D :=
  nodes.find? (fun ex => decide (dist3 pos ex.position < minNodeDistance))

/-- One collision displacement: move `minNodeDistance - distance + 1` away
from the offending node along `(cos, sin)` of `atan2(dy, dx)`, leaving `z`
untouched. -/
noncomputable def moveAway (pos : ℝ × ℝ × ℝ) (ex : Node3D) : ℝ × ℝ × ℝ :=
  let dx := pos.1 - ex.position.1
  let dy := pos.2.1 - ex.position.2.1
  let distance := dist3 pos ex.position
  let moveDistance := minNodeDistance - distance + 1
  let dh := Real.sqrt (dx ^ 2 + dy ^ 2)
  let c := if dx = 0 ∧ dy = 0 then 1 else dx / dh
  let s := if dx = 0 ∧ dy = 0 then 0 else dy / dh
  (pos.1 + c * moveDistance, pos.2.1 + s * moveDistance, pos.2.2)

/-- The bounded retry loop (`attempts < maxAttempts`, cap 20): rescan for a
collision, displace and retry on a hit, accept the position otherwise. -/
noncomputable def adjustLoop (nodes : List Node3D) : ℝ × ℝ × ℝ → ℕ → ℝ × ℝ × ℝ
  | pos, 0 => pos
  | pos, fuel + 1 =>
    match findCollision nodes pos with
    | none => pos
    | some ex => adjustLoop nodes (moveAway pos ex) fuel

/-- The mutable state of `build3DLayout`: accumulated nodes and edges, the
id counter, and the cursor into the `Math.random()` stream. -/
structure Build3DState : Type where
  nodes : List Node3D
  edges : List Edge3D
  idCounter : ℕ
  randIdx : ℕ

/-- The pre-collision `(x, y)` of a node, with the advanced random cursor:
the root at the origin; a lone child at the parent plus a small random
offset; one of several siblings on the circle of `calculateOptimalRadius`
around the parent. -/
noncomputable def initialPosition (rand : ℕ → ℝ) (depth : ℕ) (parentPos : ℝ × ℝ × ℝ)
    (siblingIndex totalSiblings : ℕ) (randIdx : ℕ) : (ℝ × ℝ) × ℕ :=
  if depth = 0 then ((0, 0), randIdx)
  else if totalSiblings = 1 then
    ((parentPos.1 + (rand randIdx - 0.5) * 0.5,
      parentPos.2.1 + (rand (randIdx + 1) - 0.5) * 0.5), randIdx + 2)
  else
    let radius := calculateOptimalRadius totalSiblings minNodeDistance
    let angle := ((siblingIndex : ℝ) / (totalSiblings : ℝ)) * Real.pi * 2
    ((parentPos.1 + Real.cos angle * radius,
      parentPos.2.1 + Real.sin angle * radius), randIdx)

mutual
/-- `traverse(n, depth, parentId, parentPos, siblingIndex, totalSiblings)`:
place the node (initial position, then the collision retry loop), record it
and its parent edge, then recurse into the children left-to-right. -/
noncomputable def traverse (rand : ℕ → ℝ) (n : KnowledgeNode) (depth : ℕ)
    (parentId : Option ℕ) (parentPos : ℝ × ℝ × ℝ) (siblingIndex totalSiblings : ℕ)
    (st : Build3DState) : Build3DState :=
  let xyr := initialPosition rand depth parentPos siblingIndex totalSiblings st.randIdx
  let finalPosition :=
    adjustLoop st.nodes (xyr.1.1, xyr.1.2, (depth : ℝ) * layerDistance) 20
  traverseChildren rand n.children (depth + 1) st.idCounter finalPosition 0
    n.children.length
    { nodes := st.nodes ++ [⟨st.idCounter, n.node, n.weight, finalPosition⟩]
      edges := st.edges ++
        (match parentId with | some p => [⟨p, st.idCounter⟩] | none => [])
      idCounter := st.idCounter + 1
      randIdx := xyr.2 }
termination_by 2 * size n
decreasing_by
  simp only [size_eq]
  omega

/-- The `for` loop over the children: each child is traversed with its
sibling index and the sibling count. -/
noncomputable def traverseChildren (rand : ℕ → ℝ) (cs : List KnowledgeNode) (depth : ℕ)
    (parentId : ℕ) (parentPos : ℝ × ℝ × ℝ) (i total : ℕ) (st : Build3DState) :
    Build3DState :=
  match cs with
  | [] => st
  | c :: rest =>
    traverseChildren rand rest depth parentId parentPos (i + 1) total
      (traverse rand c depth (some parentId) parentPos i total st)
termination_by 2 * sizeList cs + 1
decreasing_by
  · simp only [sizeList_cons, size_eq]
    omega
  · simp only [sizeList_cons, size_eq]
    omega
end

/-- `build3DLayout(root)`: traversal from the root at depth 0 with empty
accumulators. -/
noncomputable def build3DLayout (rand : ℕ → ℝ) (root : KnowledgeNode) : Build3DState :=
  traverse rand root 0 none (0, 0, 0) 0 1 ⟨[], [], 0, 0⟩

end Graph3DMain

theorem g3m_moveAway_z (pos : ℝ × ℝ × ℝ) (ex : Node3D) :
    (Graph3DMain.moveAway pos ex).2.2 = pos.2.2 := by
  rfl

/-- The collision retry loop never changes the z coordinate. -/
theorem g3m_adjustLoop_z (nodes : List Node3D) :
    ∀ (fuel : ℕ) (pos : ℝ × ℝ × ℝ),
      (Graph3DMain.adjustLoop nodes pos fuel).2.2 = pos.2.2 := by
  intro fuel
  induction fuel with
  | zero => intro pos; rfl
  | succ f ih =>
    intro pos
    simp only [Graph3DMain.adjustLoop]
    cases h : Graph3DMain.findCollision nodes pos with
    | none => simp [h]
    | some ex =>
      simp only [h]
      rw [ih (Graph3DMain.moveAway pos ex), g3m_moveAway_z]

theorem subtreeDepths_eq (n : KnowledgeNode) :
    subtreeDepths n = 0 :: (depthsList n.children).map (· + 1) := by
  rw [subtreeDepths]

theorem depthsList_nil : depthsList [] = [] := by
  rw [depthsList]

theorem depthsList_cons (c : KnowledgeNode) (rest : List KnowledgeNode) :
    depthsList (c :: rest) = subtreeDepths c ++ depthsList rest := by
  rw [depthsList]

mutual
/-- What one `traverse` call appends: nodes with consecutive ids from the
incoming counter, pre-order labels, and z coordinates `(depth + d) *
layerDistance` for the pre-order relative depths `d`; the counter advances
by the subtree size. -/
theorem g3m_traverse_spec (rand : ℕ → ℝ) (n : KnowledgeNode) (depth : ℕ)
    (pid : Option ℕ) (ppos : ℝ × ℝ × ℝ) (i total : ℕ)
    (st : Graph3DMain.Build3DState) :
    ∃ new : List Node3D,
      (Graph3DMain.traverse rand n depth pid ppos i total st).nodes = st.nodes ++ new
      ∧ new.map Node3D.id = List.range' st.idCounter (size n)
      ∧ new.map Node3D.label = createDfsTraversal n
      ∧ new.map (fun nd => nd.position.2.2) =
          (subtreeDepths n).map (fun d => ((depth + d : ℕ) : ℝ) * Graph3DMain.layerDistance)
      ∧ new.head? = some ⟨st.idCounter, n.node, n.weight,
          Graph3DMain.adjustLoop st.nodes
            ((Graph3DMain.initialPosition rand depth ppos i total st.randIdx).1.1,
             (Graph3DMain.initialPosition rand depth ppos i total st.randIdx).1.2,
             (depth : ℝ) * Graph3DMain.layerDistance) 20⟩
      ∧ (Graph3DMain.traverse rand n depth pid ppos i total st).idCounter =
          st.idCounter + size n := by
  simp only [Graph3DMain.traverse.eq_def]
  set ip := Graph3DMain.initialPosition rand depth ppos i total st.randIdx with hip
  set fp := Graph3DMain.adjustLoop st.nodes
    (ip.1.1, ip.1.2, (depth : ℝ) * Graph3DMain.layerDistance) 20 with hfp
  obtain ⟨newc, h1, h2, h3, h4, h5⟩ :=
    g3m_traverseChildren_spec rand n.children (depth + 1) st.idCounter fp
      0 n.children.length
      { nodes := st.nodes ++ [⟨st.idCounter, n.node, n.weight, fp⟩]
        edges := st.edges ++
          (match pid with | some p => [⟨p, st.idCounter⟩] | none => [])
        idCounter := st.idCounter + 1
        randIdx := ip.2 }
  dsimp only at h1 h2 h3 h4 h5
  refine ⟨⟨st.idCounter, n.node, n.weight, fp⟩ :: newc, ?_, ?_, ?_, ?_, ?_, ?_⟩
  · rw [h1]
    simp
  · simp only [List.map_cons, h2, size_eq, Nat.add_comm 1 (sizeList n.children)]
    rw [List.range'_succ]
  · simp only [List.map_cons, h3, createDfsTraversal_eq n]
  · have hz : fp.2.2 = (depth : ℝ) * Graph3DMain.layerDistance := by
      rw [hfp]
      exact g3m_adjustLoop_z st.nodes 20 _
    have htail :
        (depthsList n.children).map
            (fun d => ((depth + 1 + d : ℕ) : ℝ) * Graph3DMain.layerDistance) =
          (depthsList n.children).map
            ((fun d => ((depth + d : ℕ) : ℝ) * Graph3DMain.layerDistance) ∘ (· + 1)) := by
      apply List.map_congr_left
      intro d _
      simp only [Function.comp_apply]
      congr 1
      push_cast
      ring
    rw [subtreeDepths_eq n]
    simp only [List.map_cons, List.map_map, h4, hz, htail]
    norm_num
  · rw [List.head?_cons, hfp]
  · rw [h5]
    simp only [size_eq]
    omega
termination_by 2 * size n
decreasing_by
  simp only [size_eq]
  omega

/-- What the child loop appends, forest version of `g3m_traverse_spec`. -/
theorem g3m_traverseChildren_spec (rand : ℕ → ℝ) (cs : List KnowledgeNode)
    (depth parentId : ℕ) (ppos : ℝ × ℝ × ℝ) (i total : ℕ)
    (st : Graph3DMain.Build3DState) :
    ∃ new : List Node3D,
      (Graph3DMain.traverseChildren rand cs depth parentId ppos i total st).nodes =
        st.nodes ++ new
      ∧ new.map Node3D.id = List.range' st.idCounter (sizeList cs)
      ∧ new.map Node3D.label = cs.flatMap createDfsTraversal
      ∧ new.map (fun nd => nd.position.2.2) =
          (depthsList cs).map (fun d => ((depth + d : ℕ) : ℝ) * Graph3DMain.layerDistance)
      ∧ (Graph3DMain.traverseChildren rand cs depth parentId ppos i total st).idCounter =
          st.idCounter + sizeList cs := by
  match cs with
  | [] =>
    refine ⟨[], ?_, ?_, ?_, ?_, ?_⟩ <;>
      (try rw [Graph3DMain.traverseChildren.eq_def]) <;>
      simp [depthsList_nil]
  | c :: rest =>
    rw [Graph3DMain.traverseChildren.eq_def]
    dsimp only
    obtain ⟨new₁, h1, h2, h3, h4, _, h5⟩ :=
      g3m_traverse_spec rand c depth (some parentId) ppos i total st
    obtain ⟨new₂, g1, g2, g3, g4, g5⟩ :=
      g3m_traverseChildren_spec rand rest depth parentId ppos (i + 1) total
        (Graph3DMain.traverse rand c depth (some parentId) ppos i total st)
    refine ⟨new₁ ++ new₂, ?_, ?_, ?_, ?_, ?_⟩
    · rw [g1, h1, List.append_assoc]
    · rw [List.map_append, h2, g2, h5, sizeList_cons]
      rw [Nat.add_comm (size c) (sizeList rest)]
      simpa using List.range'_append st.idCounter (size c) (sizeList rest) 1
    · rw [List.map_append, h3, g3, List.flatMap_cons]
    · rw [List.map_append, h4, g4, depthsList_cons, List.map_append]
    · rw [g5, h5, sizeList_cons]
      omega
termination_by 2 * sizeList cs + 1
decreasing_by
  · simp only [sizeList_cons, size_eq]
    omega
  · simp only [sizeList_cons, size_eq]
    omega
end

theorem g3m_adjustLoop_nil (pos : ℝ × ℝ × ℝ) (fuel : ℕ) :
    Graph3DMain.adjustLoop [] pos fuel = pos := by
  cases fuel with
  | zero => rfl
  | succ f => simp [Graph3DMain.adjustLoop, Graph3DMain.findCollision]

/-! 3D layout, fixed-radius ring variant (`build3DLayout` in the earlier
`Graph3D` component): every node is first pushed at `[0, 0, depth * layerZ]`,
then the parent's child loop overwrites each child's position with its spot
on the sibling ellipse, keeping `z = depth * layerZ`. -/

namespace Graph3DRing

/-- `layerZ`: distance between layers along +Z. -/
def layerZ : ℝ := 6

/-- `radial`: base radius for each layer. -/
def radial : ℝ := 4

/-- The mutable state: nodes, edges, id counter. -/
structure RingState : Type where
  nodes : List Node3D
  edges : List Edge3D
  idCounter : ℕ

/-- `nodes.find(nn => nn.id === childId)!.position = p`: rewrite the position
of the node carrying the id (ids are unique, so the first match is the only
one). -/
def updatePos (nodes : List Node3D) (id : ℕ) (p : ℝ × ℝ × ℝ) : List Node3D :=
  nodes.map (fun nd => if nd.id = id then { nd with position := p } else nd)

mutual
/-- `traverse(n, depth, parentId)`: push the node at `[0, 0, depth*layerZ]`,
record the parent edge, then run the child loop with the layer's radius
`radial * depth + 3`; returns the node's id. -/
noncomputable def traverse (n : KnowledgeNode) (depth : ℕ) (parentId : Option ℕ)
    (st : RingState) : ℕ × RingState :=
  ⟨st.idCounter,
    childLoop n.children depth st.idCounter (radial * (depth : ℝ) + 3) 0
      n.children.length
      { nodes := st.nodes ++
          [⟨st.idCounter, n.node, n.weight, (0, 0, (depth : ℝ) * layerZ)⟩]
        edges := st.edges ++
          (match parentId with | some p => [⟨p, st.idCounter⟩] | none => [])
        idCounter := st.idCounter + 1 }⟩
termination_by 2 * size n
decreasing_by
  simp only [size_eq]
  omega

/-- The `for` loop over the children: angle `i/count * 2π`, ellipse spot
`(cos·radius, sin·radius·0.6)`, traverse the child, then overwrite the
child's position with that spot at `z = (depth+1) * layerZ`. -/
noncomputable def childLoop (cs : List KnowledgeNode) (depth parentId : ℕ)
    (radius : ℝ) (i count : ℕ) (st : RingState) : RingState :=
  match cs with
  | [] => st
  | c :: rest =>
    let angle := ((i : ℝ) / (count : ℝ)) * Real.pi * 2
    let spot : ℝ × ℝ × ℝ :=
      (Real.cos angle * radius, Real.sin angle * (radius * 0.6),
        ((depth + 1 : ℕ) : ℝ) * layerZ)
    let r := traverse c (depth + 1) (some parentId) st
    childLoop rest depth parentId radius (i + 1) count
      { r.2 with nodes := updatePos r.2.nodes r.1 spot }
termination_by 2 * sizeList cs + 1
decreasing_by
  · simp only [sizeList_cons, size_eq]
    omega
  · simp only [sizeList_cons, size_eq]
    omega
end

/-- `build3DLayout(root)`. -/
noncomputable def build3DLayout (root : KnowledgeNode) : RingState :=
  (traverse root 0 none ⟨[], [], 0⟩).2

end Graph3DRing

theorem g3r_updatePos_map_id (l : List Node3D) (i : ℕ) (p : ℝ × ℝ × ℝ) :
    (Graph3DRing.updatePos l i p).map Node3D.id = l.map Node3D.id := by
  induction l with
  | nil => rfl
  | cons nd tl ih =>
    simp only [Graph3DRing.updatePos, List.map_cons] at ih ⊢
    rw [ih]
    by_cases h : nd.id = i <;> simp [h]

theorem g3r_updatePos_map_label (l : List Node3D) (i : ℕ) (p : ℝ × ℝ × ℝ) :
    (Graph3DRing.updatePos l i p).map Node3D.label = l.map Node3D.label := by
  induction l with
  | nil => rfl
  | cons nd tl ih =>
    simp only [Graph3DRing.updatePos, List.map_cons] at ih ⊢
    rw [ih]
    by_cases h : nd.id = i <;> simp [h]

theorem g3r_updatePos_of_ne (l : List Node3D) (i : ℕ) (p : ℝ × ℝ × ℝ)
    (h : ∀ nd ∈ l, nd.id ≠ i) : Graph3DRing.updatePos l i p = l := by
  induction l with
  | nil => rfl
  | cons nd tl ih =>
    simp only [Graph3DRing.updatePos, List.map_cons]
    rw [if_neg (h nd (by simp))]
    have := ih (fun nd hnd => h nd (by simp [hnd]))
    simp only [Graph3DRing.updatePos] at this
    rw [this]

theorem g3r_updatePos_append (a b : List Node3D) (i : ℕ) (p : ℝ × ℝ × ℝ) :
    Graph3DRing.updatePos (a ++ b) i p =
      Graph3DRing.updatePos a i p ++ Graph3DRing.updatePos b i p := by
  simp [Graph3DRing.updatePos]

/-- The single position overwrite keeps the z map unchanged when the target
node already carries the written z. -/
theorem g3r_updatePos_map_z (l : List Node3D) (i : ℕ) (p : ℝ × ℝ × ℝ)
    (h : ∀ nd ∈ l, nd.id = i → nd.position.2.2 = p.2.2) :
    (Graph3DRing.updatePos l i p).map (fun nd => nd.position.2.2) =
      l.map (fun nd => nd.position.2.2) := by
  induction l with
  | nil => rfl
  | cons nd tl ih =>
    simp only [Graph3DRing.updatePos, List.map_cons] at ih ⊢
    rw [ih (fun nd hnd hid => h nd (by simp [hnd]) hid)]
    by_cases hh : nd.id = i
    · simp [hh, (h nd (by simp) hh).symm]
    · simp [hh]

mutual
/-- What one ring-variant `traverse` call appends: nodes with consecutive
ids, pre-order labels, z coordinates `(depth + d) * layerZ`, and the
subtree's own root kept at `(0, 0, depth * layerZ)` (only its parent's loop,
outside this call, may later move its x/y). -/
theorem g3r_traverse_spec (n : KnowledgeNode) (depth : ℕ) (pid : Option ℕ)
    (st : Graph3DRing.RingState)
    (hids : ∀ nd ∈ st.nodes, nd.id < st.idCounter) :
    (Graph3DRing.traverse n depth pid st).1 = st.idCounter
    ∧ ∃ new : List Node3D,
      (Graph3DRing.traverse n depth pid st).2.nodes = st.nodes ++ new
      ∧ new.map Node3D.id = List.range' st.idCounter (size n)
      ∧ new.map Node3D.label = createDfsTraversal n
      ∧ new.map (fun nd => nd.position.2.2) =
          (subtreeDepths n).map (fun d => ((depth + d : ℕ) : ℝ) * Graph3DRing.layerZ)
      ∧ new.head? = some ⟨st.idCounter, n.node, n.weight,
          (0, 0, (depth : ℝ) * Graph3DRing.layerZ)⟩
      ∧ (Graph3DRing.traverse n depth pid st).2.idCounter = st.idCounter + size n := by
  rw [Graph3DRing.traverse.eq_def]
  obtain ⟨newc, h1, h2, h3, h4, h5⟩ :=
    g3r_childLoop_spec n.children depth st.idCounter
      (Graph3DRing.radial * (depth : ℝ) + 3) 0 n.children.length
      { nodes := st.nodes ++
          [⟨st.idCounter, n.node, n.weight, (0, 0, (depth : ℝ) * Graph3DRing.layerZ)⟩]
        edges := st.edges ++
          (match pid with | some p => [⟨p, st.idCounter⟩] | none => [])
        idCounter := st.idCounter + 1 }
      (by
        intro nd hnd
        dsimp only at hnd ⊢
        simp only [List.mem_append, List.mem_singleton] at hnd
        rcases hnd with hnd | hnd
        · have := hids nd hnd
          omega
        · subst hnd
          dsimp only
          omega)
  dsimp only at h1 h2 h3 h4 h5 ⊢
  refine ⟨rfl,
    ⟨st.idCounter, n.node, n.weight, (0, 0, (depth : ℝ) * Graph3DRing.layerZ)⟩ :: newc,
    ?_, ?_, ?_, ?_, rfl, ?_⟩
  · rw [h1]
    simp
  · simp only [List.map_cons, h2, size_eq, Nat.add_comm 1 (sizeList n.children)]
    rw [List.range'_succ]
  · simp only [List.map_cons, h3, createDfsTraversal_eq n]
  · have htail :
        (depthsList n.children).map
            (fun d => ((depth + 1 + d : ℕ) : ℝ) * Graph3DRing.layerZ) =
          (depthsList n.children).map
            ((fun d => ((depth + d : ℕ) : ℝ) * Graph3DRing.layerZ) ∘ (· + 1)) := by
      apply List.map_congr_left
      intro d _
      simp only [Function.comp_apply]
      congr 1
      push_cast
      ring
    rw [subtreeDepths_eq n]
    simp only [List.map_cons, List.map_map, h4, htail]
    norm_num
  · rw [h5, size_eq]
    omega
termination_by 2 * size n
decreasing_by
  simp only [size_eq]
  omega

/-- What the ring-variant child loop appends; the position overwrite of each
child changes only that child's x/y (its z is rewritten with the value it
already carries), so the id, label and z listings are those of the plain
traversal. -/
theorem g3r_childLoop_spec (cs : List KnowledgeNode) (depth parentId : ℕ)
    (radius : ℝ) (i count : ℕ) (st : Graph3DRing.RingState)
    (hids : ∀ nd ∈ st.nodes, nd.id < st.idCounter) :
    ∃ new : List Node3D,
      (Graph3DRing.childLoop cs depth parentId radius i count st).nodes =
        st.nodes ++ new
      ∧ new.map Node3D.id = List.range' st.idCounter (sizeList cs)
      ∧ new.map Node3D.label = cs.flatMap createDfsTraversal
      ∧ new.map (fun nd => nd.position.2.2) =
          (depthsList cs).map (fun d => ((depth + 1 + d : ℕ) : ℝ) * Graph3DRing.layerZ)
      ∧ (Graph3DRing.childLoop cs depth parentId radius i count st).idCounter =
          st.idCounter + sizeList cs := by
  match cs with
  | [] =>
    refine ⟨[], ?_, ?_, ?_, ?_, ?_⟩ <;>
      (try rw [Graph3DRing.childLoop.eq_def]) <;>
      simp [depthsList_nil]
  | c :: rest =>
    rw [Graph3DRing.childLoop.eq_def]
    dsimp only
    obtain ⟨hid1, new₁, hn1, hi1, hl1, hz1, hh1, hc1⟩ :=
      g3r_traverse_spec c (depth + 1) (some parentId) st hids
    cases hnew₁ : new₁ with
    | nil => rw [hnew₁] at hh1; cases hh1
    | cons rec₀ tail =>
      rw [hnew₁] at hn1 hi1 hl1 hz1 hh1
      have hrec : rec₀ = ⟨st.idCounter, c.node, c.weight,
          (0, 0, ((depth + 1 : ℕ) : ℝ) * Graph3DRing.layerZ)⟩ := by
        have h := hh1
        simp only [List.head?_cons, Option.some.injEq] at h
        exact h
      have htail_ids : tail.map Node3D.id =
          List.range' (st.idCounter + 1) (sizeList c.children) := by
        have h := hi1
        rw [size_eq, Nat.add_comm 1 (sizeList c.children), List.range'_succ] at h
        simp only [List.map_cons, List.cons.injEq] at h
        exact h.2
      have htail_ne : ∀ nd ∈ tail, nd.id ≠ st.idCounter := by
        intro nd hnd
        have hmem := List.mem_map_of_mem Node3D.id hnd
        rw [htail_ids, List.mem_range'] at hmem
        obtain ⟨k, hk, hek⟩ := hmem
        omega
      set spot : ℝ × ℝ × ℝ :=
        (Real.cos (((i : ℝ) / (count : ℝ)) * Real.pi * 2) * radius,
         Real.sin (((i : ℝ) / (count : ℝ)) * Real.pi * 2) * (radius * 0.6),
         ((depth + 1 : ℕ) : ℝ) * Graph3DRing.layerZ) with hspot
      have hupd : Graph3DRing.updatePos (Graph3DRing.traverse c (depth + 1)
            (some parentId) st).2.nodes
            (Graph3DRing.traverse c (depth + 1) (some parentId) st).1 spot =
          st.nodes ++ ({ rec₀ with position := spot } :: tail) := by
        rw [hn1, hid1, g3r_updatePos_append]
        congr 1
        · exact g3r_updatePos_of_ne _ _ _
            (fun nd hnd => by have := hids nd hnd; omega)
        · simp only [Graph3DRing.updatePos, List.map_cons]
          rw [if_pos (by rw [hrec])]
          congr 1
          exact g3r_updatePos_of_ne _ _ _ htail_ne
      have hids2 : ∀ nd ∈ st.nodes ++ ({ rec₀ with position := spot } :: tail),
          nd.id < st.idCounter + size c := by
        intro nd hnd
        have hsz := size_pos c
        simp only [List.mem_append, List.mem_cons] at hnd
        rcases hnd with hnd | hnd | hnd
        · have := hids nd hnd
          omega
        · subst hnd
          rw [hrec]
          dsimp only
          omega
        · have hmem := List.mem_map_of_mem Node3D.id hnd
          rw [htail_ids, List.mem_range'] at hmem
          obtain ⟨k, hk, hek⟩ := hmem
          rw [size_eq]
          omega
      rw [hupd, hc1]
      obtain ⟨new₂, g1, g2, g3, g4, g5⟩ :=
        g3r_childLoop_spec rest depth parentId radius (i + 1) count
          { nodes := st.nodes ++ ({ rec₀ with position := spot } :: tail)
            edges := (Graph3DRing.traverse c (depth + 1) (some parentId) st).2.edges
            idCounter := st.idCounter + size c }
          (by
            intro nd hnd
            dsimp only at hnd ⊢
            exact hids2 nd hnd)
      dsimp only at g1 g2 g3 g4 g5
      refine ⟨({ rec₀ with position := spot } :: tail) ++ new₂, ?_, ?_, ?_, ?_, ?_⟩
      · rw [g1]
        simp
      · rw [List.map_append, g2, sizeList_cons]
        have hfst : ({ rec₀ with position := spot } :: tail).map Node3D.id =
            List.range' st.idCounter (size c) := hi1
        rw [hfst, Nat.add_comm (size c) (sizeList rest)]
        simpa using List.range'_append st.idCounter (size c) (sizeList rest) 1
      · rw [List.map_append, g3, List.flatMap_cons]
        have hll : ({ rec₀ with position := spot } :: tail).map Node3D.label =
            createDfsTraversal c := hl1
        rw [hll]
      · have hzz : ({ rec₀ with position := spot } :: tail).map
              (fun nd => nd.position.2.2) =
            (rec₀ :: tail).map (fun nd => nd.position.2.2) := by
          simp only [List.map_cons]
          congr 1
          rw [hrec]
        rw [List.map_append, g4, depthsList_cons, List.map_append, hzz, hz1]
      · rw [g5, sizeList_cons]
        omega
termination_by 2 * sizeList cs + 1
decreasing_by
  · simp only [sizeList_cons, size_eq]
    omega
  · simp only [sizeList_cons, size_eq]
    omega
end

/-! Build-level consequences for both 3D variants, and claim C7. -/

theorem g3m_build_id_label_z (rand : ℕ → ℝ) (t : KnowledgeNode) :
    (Graph3DMain.build3DLayout rand t).nodes.map Node3D.id = List.range' 0 (size t)
    ∧ (Graph3DMain.build3DLayout rand t).nodes.map Node3D.label = createDfsTraversal t
    ∧ (Graph3DMain.build3DLayout rand t).nodes.map (fun nd => nd.position.2.2) =
        (subtreeDepths t).map (fun d : ℕ => (d : ℝ) * Graph3DMain.layerDistance) := by
  obtain ⟨new, h1, h2, h3, h4, _, _⟩ :=
    g3m_traverse_spec rand t 0 none (0, 0, 0) 0 1 ⟨[], [], 0, 0⟩
  rw [Graph3DMain.build3DLayout]
  dsimp only at h1 h2 h3 h4
  rw [h1]
  simp only [List.nil_append]
  refine ⟨h2, h3, ?_⟩
  rw [h4]
  apply List.map_congr_left
  intro d _
  norm_num

theorem g3m_build_root_origin (rand : ℕ → ℝ) (t : KnowledgeNode) :
    ((Graph3DMain.build3DLayout rand t).nodes.map Node3D.position).head? =
      some (0, 0, 0) := by
  obtain ⟨new, h1, _, _, _, hhead, _⟩ :=
    g3m_traverse_spec rand t 0 none (0, 0, 0) 0 1 ⟨[], [], 0, 0⟩
  dsimp only at h1 hhead
  rw [Graph3DMain.build3DLayout, h1, List.nil_append, List.head?_map, hhead]
  have hip : Graph3DMain.initialPosition rand 0 (0, 0, 0) 0 1 0 = ((0, 0), 0) := by
    rw [Graph3DMain.initialPosition]
    simp
  rw [hip]
  simp only [Option.map_some']
  rw [g3m_adjustLoop_nil]
  norm_num

theorem g3r_build_id_label_z (t : KnowledgeNode) :
    (Graph3DRing.build3DLayout t).nodes.map Node3D.id = List.range' 0 (size t)
    ∧ (Graph3DRing.build3DLayout t).nodes.map Node3D.label = createDfsTraversal t
    ∧ (Graph3DRing.build3DLayout t).nodes.map (fun nd => nd.position.2.2) =
        (subtreeDepths t).map (fun d : ℕ => (d : ℝ) * Graph3DRing.layerZ)
    ∧ ((Graph3DRing.build3DLayout t).nodes.map Node3D.position).head? =
        some (0, 0, 0) := by
  obtain ⟨_, new, h1, h2, h3, h4, hh, _⟩ :=
    g3r_traverse_spec t 0 none ⟨[], [], 0⟩ (by simp)
  dsimp only at h1 h2 h3 h4 hh
  rw [Graph3DRing.build3DLayout, h1, List.nil_append]
  refine ⟨h2, h3, ?_, ?_⟩
  · rw [h4]
    apply List.map_congr_left
    intro d _
    norm_num
  · rw [List.head?_map, hh]
    simp only [Option.map_some']
    norm_num

/-- C7. In both 3D layout variants every node created at tree depth `d` has
z coordinate exactly `d` times the layer distance (the entire z listing is
the pre-order depth listing scaled by `layerDistance`/`layerZ`), the
collision-displacement retry loop of the adaptive variant never changes the
z coordinate, and each variant places the root node at `(0, 0, 0)`. -/
theorem layer_z_and_root_origin :
    (∀ (rand : ℕ → ℝ) (t : KnowledgeNode),
      (Graph3DMain.build3DLayout rand t).nodes.map (fun nd => nd.position.2.2) =
        (subtreeDepths t).map (fun d : ℕ => (d : ℝ) * Graph3DMain.layerDistance))
    ∧ (∀ (nodes : List Node3D) (fuel : ℕ) (pos : ℝ × ℝ × ℝ),
        (Graph3DMain.adjustLoop nodes pos fuel).2.2 = pos.2.2)
    ∧ (∀ (rand : ℕ → ℝ) (t : KnowledgeNode),
        ((Graph3DMain.build3DLayout rand t).nodes.map Node3D.position).head? =
          some (0, 0, 0))
    ∧ (∀ t : KnowledgeNode,
        (Graph3DRing.build3DLayout t).nodes.map (fun nd => nd.position.2.2) =
          (subtreeDepths t).map (fun d : ℕ => (d : ℝ) * Graph3DRing.layerZ))
    ∧ (∀ t : KnowledgeNode,
        ((Graph3DRing.build3DLayout t).nodes.map Node3D.position).head? =
          some (0, 0, 0)) :=
  ⟨fun rand t => (g3m_build_id_label_z rand t).2.2,
   fun nodes fuel pos => g3m_adjustLoop_z nodes fuel pos,
   g3m_build_root_origin,
   fun t => (g3r_build_id_label_z t).2.2.1,
   fun t => (g3r_build_id_label_z t).2.2.2⟩

/-! Duplicate labels: traversal multiplicity and highlight behavior. -/

mutual
/-- Number of nodes of a tree carrying a given label. -/
def countLabel (l : String) : KnowledgeNode → ℕ
  | n => (if n.node = l then 1 else 0) + countLabelList l n.children
termination_by n => 2 * size n
decreasing_by
  simp only [size_eq]
  omega

/-- Number of nodes of a forest carrying a given label. -/
def countLabelList (l : String) : List KnowledgeNode → ℕ
  | [] => 0
  | c :: rest => countLabel l c + countLabelList l rest
termination_by q => 2 * sizeList q + 1
decreasing_by
  · simp only [sizeList_cons, size_eq]
    omega
  · simp only [sizeList_cons, size_eq]
    omega
end

theorem countLabelList_nil (l : String) : countLabelList l [] = 0 := by
  rw [countLabelList]

theorem countLabelList_cons (l : String) (c : KnowledgeNode)
    (rest : List KnowledgeNode) :
    countLabelList l (c :: rest) = countLabel l c + countLabelList l rest := by
  rw [countLabelList]

theorem countLabel_eq (l : String) (n : KnowledgeNode) :
    countLabel l n = (if n.node = l then 1 else 0) + countLabelList l n.children := by
  rw [countLabel]

theorem countLabelList_append (l : String) (a b : List KnowledgeNode) :
    countLabelList l (a ++ b) = countLabelList l a + countLabelList l b := by
  induction a with
  | nil =>
    rw [List.nil_append, countLabelList_nil]
    omega
  | cons c rest ih =>
    rw [List.cons_append, countLabelList_cons, countLabelList_cons, ih]
    omega

theorem bfsAux_count (l : String) (q : List KnowledgeNode) :
    (bfsAux q).count l = countLabelList l q := by
  cases hq : q with
  | nil => rw [bfsAux_nil, countLabelList_nil]; rfl
  | cons n rest =>
    rw [bfsAux_cons, List.count_cons, bfsAux_count l (rest ++ n.children),
      countLabelList_append, countLabelList_cons, countLabel_eq]
    by_cases h : n.node = l
    · have hb : (n.node == l) = true := by simpa using h
      rw [hb, if_pos h]
      simp
      omega
    · have hb : (n.node == l) = false := by simpa using h
      rw [hb, if_neg h]
      simp
      omega
termination_by sizeList q
decreasing_by
  subst hq
  simp only [sizeList_append, sizeList_cons, size_eq]
  omega

/-- 2D highlight test (`isFocused` in `KnowledgeNodeComponent`):
`focusedNodeLabel === data.label`. -/
def isFocused2D (focusedNodeLabel : Option String) (label : String) : Bool :=
  focusedNodeLabel == some label

/-- 3D highlight test (`isFocused={n.id === focusId}` in `GraphScene`). -/
def isFocused3D (focusId : Option ℕ) (n : Node3D) : Bool :=
  focusId == some n.id

/-- The 3D view's focus synchronisation effect: a label focused by the 2D
view is resolved through `labelToId`; a cleared label clears `focusId`. -/
def syncFocusFrom2D (nodes : List Node3D) (focusedNodeLabel : Option String)
    (focusSource : Option FocusSource) (focusId : Option ℕ) : Option ℕ :=
  match focusedNodeLabel with
  | some lbl =>
    if focusSource = some FocusSource.graph2d then
      match labelToId nodes lbl with
      | some matchingId => some matchingId
      | none => focusId
    else focusId
  | none => none

/-- The duplicate-label tree of spec scenario 11: `Root → [X, X]`. -/
def rootXX : KnowledgeNode :=
  .mk "Root" none [.mk "X" none [], .mk "X" none []]

/-- A concrete `Math.random()` stream (unused by `rootXX`'s layout: no node
is a lone child). -/
def rand0 : ℕ → ℝ := fun _ => 0

theorem map_of_pairs {β : Type} (g : ℕ → String → β) :
    ∀ (ns : List Node3D) (ps : List (ℕ × String)),
      ns.map (fun nd => (nd.id, nd.label)) = ps →
      ns.map (fun nd => g nd.id nd.label) = ps.map (fun p => g p.1 p.2) := by
  intro ns
  induction ns with
  | nil =>
    intro ps h
    rw [List.map_nil] at h
    rw [← h]
    rfl
  | cons nd tl ih =>
    intro ps h
    rw [List.map_cons] at h
    rw [← h]
    simp only [List.map_cons]
    rw [ih (tl.map (fun nd => (nd.id, nd.label))) rfl]

theorem g3m_rootXX_pairs :
    (Graph3DMain.build3DLayout rand0 rootXX).nodes.map (fun nd => (nd.id, nd.label)) =
      [(0, "Root"), (1, "X"), (2, "X")] := by
  rw [← List.zip_map' Node3D.id Node3D.label,
    (g3m_build_id_label_z rand0 rootXX).1, (g3m_build_id_label_z rand0 rootXX).2.1]
  have hsz : size rootXX = 3 := by
    simp [rootXX]
  have hdfs : createDfsTraversal rootXX = ["Root", "X", "X"] := by
    simp [rootXX, createDfsTraversal, dfsAux_cons, dfsAux_nil,
      KnowledgeNode.node, KnowledgeNode.children]
  rw [hsz, hdfs]
  rfl

theorem g3m_rootXX_highlight :
    (Graph3DMain.build3DLayout rand0 rootXX).nodes.map (fun nd =>
      (nd.label, isFocused3D (syncFocusFrom2D
        (Graph3DMain.build3DLayout rand0 rootXX).nodes
        (some "X") (some FocusSource.graph2d) none) nd)) =
      [("Root", false), ("X", false), ("X", true)] := by
  have hlab : labelToId (Graph3DMain.build3DLayout rand0 rootXX).nodes =
      buildMap [("Root", (0 : ℕ)), ("X", 1), ("X", 2)] := by
    rw [labelToId]
    have h := map_of_pairs (fun i l => (l, i)) _ _ g3m_rootXX_pairs
    rw [h]
    rfl
  have hsync : syncFocusFrom2D (Graph3DMain.build3DLayout rand0 rootXX).nodes
      (some "X") (some FocusSource.graph2d) none = some 2 := by
    rw [syncFocusFrom2D, hlab]
    rfl
  rw [hsync]
  have h := map_of_pairs (fun i l => (l, ((some 2 : Option ℕ) == some i))) _ _
    g3m_rootXX_pairs
  rw [show (fun nd => (nd.label, isFocused3D (some 2) nd)) =
      (fun nd : Node3D => (nd.label, ((some 2 : Option ℕ) == some nd.id))) from rfl, h]
  rfl

/-- C4, counterexample. On the duplicate-label tree `Root → [X, X]` with
`"X"` focused from the 2D view, the 3D view highlights only the second `X`
node: the entry `("X", false)` shows a node carrying the focused label that
the 3D view does not highlight, contradicting "both views highlight all
nodes carrying that label". -/
theorem dup_label_3d_highlights_one_node :
    (Graph3DMain.build3DLayout rand0 rootXX).nodes.map (fun nd =>
      (nd.label, isFocused3D (syncFocusFrom2D
        (Graph3DMain.build3DLayout rand0 rootXX).nodes
        (some "X") (some FocusSource.graph2d) none) nd)) =
      [("Root", false), ("X", false), ("X", true)]
    ∧ ("X", false) ∈ [("Root", false), ("X", false), ("X", true)] :=
  ⟨g3m_rootXX_highlight, by decide⟩

/-- C4, amended. The traversal order contains a label once per node carrying
it, and the 2D view highlights exactly the nodes whose label equals the
focused label (so duplicate-label nodes are all highlighted together); the
3D view, however, resolves the focused label through `labelToId`, in which a
later node overwrites an earlier one with the same label, and highlights by
node id: on `Root → [X, X]` only the last `X` node is highlighted. -/
theorem dup_label_traversal_and_highlight :
    (∀ (t : KnowledgeNode) (l : String),
        (createBfsTraversal t).count l = countLabel l t)
    ∧ (∀ l : String, isFocused2D (some l) l = true)
    ∧ (∀ l l' : String, l ≠ l' → isFocused2D (some l) l' = false)
    ∧ (Graph3DMain.build3DLayout rand0 rootXX).nodes.map (fun nd =>
        (nd.label, isFocused3D (syncFocusFrom2D
          (Graph3DMain.build3DLayout rand0 rootXX).nodes
          (some "X") (some FocusSource.graph2d) none) nd)) =
        [("Root", false), ("X", false), ("X", true)] := by
  refine ⟨?_, ?_, ?_, g3m_rootXX_highlight⟩
  · intro t l
    rw [createBfsTraversal, bfsAux_count, countLabelList_cons, countLabelList_nil]
    omega
  · intro l
    simp [isFocused2D]
  · intro l l' h
    simp [isFocused2D, h]

/-- Witness for `dup_label_traversal_and_highlight`: on the duplicate-label
tree the BFS order counts `"X"` twice, and a different label is not
highlighted in 2D. -/
theorem dup_label_traversal_witness :
    (createBfsTraversal rootXX).count "X" = countLabel "X" rootXX
    ∧ countLabel "X" rootXX = 2
    ∧ isFocused2D (some "X") "Y" = false := by
  refine ⟨(dup_label_traversal_and_highlight).1 rootXX "X", ?_,
    (dup_label_traversal_and_highlight).2.2.1 "X" "Y" (by decide)⟩
  simp [rootXX, countLabel_eq, countLabelList_cons, countLabelList_nil,
    KnowledgeNode.node, KnowledgeNode.children]

/-! 2D collision-resolution pass (`handleNodesChange` in the ReactFlow
`KnowledgeTree`): after a drag ends, a single double loop over all index
pairs `i < j` pushes the two nodes of every pair at positive distance below
the 100 px threshold apart, symmetrically along their connecting line, each
by half the deficit.  `Math.cos/sin (atan2 dy dx)` is embedded as
`(dx, dy) / distance` (the branch guarantees `distance > 0`). -/

/-- Euclidean distance of two node positions. -/
noncomputable def dist2 (a b : ℝ × ℝ) : ℝ :=
  Real.sqrt ((b.1 - a.1) * (b.1 - a.1) + (b.2 - a.2) * (b.2 - a.2))

/-- `minDistance`: the minimum distance between nodes. -/
def minDistance : ℝ := 100

/-- The pair body of the collision loop: when
`distance < minDistance && distance > 0`, push nodes `a` and `b` apart by
`(minDistance - distance) / 2` each along the connecting line. -/
noncomputable def resolvePair (a b : ℝ × ℝ) : (ℝ × ℝ) × (ℝ × ℝ) :=
  let dx := b.1 - a.1
  let dy := b.2 - a.2
  let distance := Real.sqrt (dx * dx + dy * dy)
  if distance < minDistance ∧ 0 < distance then
    let pushDistance := (minDistance - distance) / 2
    let pushX := dx / distance * pushDistance
    let pushY := dy / distance * pushDistance
    ((a.1 - pushX, a.2 - pushY), (b.1 + pushX, b.2 + pushY))
  else (a, b)

/-- The index pairs `(i, j)` with `i < j < n`, in the loop's order. -/
def pairsList (n : ℕ) : List (ℕ × ℕ) :=
  (List.range n).flatMap (fun i => ((List.range n).drop (i + 1)).map (fun j => (i, j)))

/-- One iteration of the double loop: read positions `i` and `j` from the
current array and write the resolved pair back. -/
noncomputable def stepPair (ps : List (ℝ × ℝ)) (ij : ℕ × ℕ) : List (ℝ × ℝ) :=
  match ps.get? ij.1, ps.get? ij.2 with
  | some a, some b =>
    let r := resolvePair a b
    (ps.set ij.1 r.1).set ij.2 r.2
  | _, _ => ps

/-- The whole single pass over all pairs (not iterated to a fixed point). -/
noncomputable def resolveCollisions (ps : List (ℝ × ℝ)) : List (ℝ × ℝ) :=
  (pairsList ps.length).foldl stepPair ps

theorem dist2_resolvePair_eq (a b : ℝ × ℝ) :
    resolvePair a b =
      if dist2 a b < minDistance ∧ 0 < dist2 a b then
        ((a.1 - (b.1 - a.1) / dist2 a b * ((minDistance - dist2 a b) / 2),
          a.2 - (b.2 - a.2) / dist2 a b * ((minDistance - dist2 a b) / 2)),
         (b.1 + (b.1 - a.1) / dist2 a b * ((minDistance - dist2 a b) / 2),
          b.2 + (b.2 - a.2) / dist2 a b * ((minDistance - dist2 a b) / 2))) else (a, b) := by
  rw [resolvePair, dist2]

theorem dist2_sq (a b : ℝ × ℝ) :
    dist2 a b * dist2 a b = (b.1 - a.1) * (b.1 - a.1) + (b.2 - a.2) * (b.2 - a.2) := by
  rw [dist2]
  exact Real.mul_self_sqrt
    (by nlinarith [mul_self_nonneg (b.1 - a.1), mul_self_nonneg (b.2 - a.2)])

theorem coincident_pair_not_pushed_aux (a b : ℝ × ℝ) (h : dist2 a b = 0) :
    resolvePair a b = (a, b) := by
  rw [dist2_resolvePair_eq, if_neg]
  rw [h]
  simp

theorem sqrt_of_mul_self (x y : ℝ) (hy : 0 ≤ y) (h : y * y = x) :
    Real.sqrt x = y := by
  rw [← h]
  exact Real.sqrt_mul_self hy

/-- The push arithmetic of one in-range pair: both nodes move exactly half
the deficit, the displaced pair stays on the original connecting line (the
new difference vector is the old one scaled by `minDistance / distance`),
and the resulting distance is exactly the threshold. -/
theorem resolvePair_push (a b : ℝ × ℝ) (h1 : 0 < dist2 a b)
    (h2 : dist2 a b < minDistance) :
    dist2 (resolvePair a b).1 a = (minDistance - dist2 a b) / 2
    ∧ dist2 (resolvePair a b).2 b = (minDistance - dist2 a b) / 2
    ∧ (resolvePair a b).2.1 - (resolvePair a b).1.1 =
        (b.1 - a.1) * (minDistance / dist2 a b)
    ∧ (resolvePair a b).2.2 - (resolvePair a b).1.2 =
        (b.2 - a.2) * (minDistance / dist2 a b)
    ∧ dist2 (resolvePair a b).1 (resolvePair a b).2 = minDistance := by
  have hd2 : (b.1 - a.1) * (b.1 - a.1) + (b.2 - a.2) * (b.2 - a.2) =
      dist2 a b * dist2 a b := (dist2_sq a b).symm
  have hdne : dist2 a b ≠ 0 := ne_of_gt h1
  have hp0 : (0 : ℝ) ≤ (minDistance - dist2 a b) / 2 := by
    rw [minDistance] at h2 ⊢
    linarith
  have hm0 : (0 : ℝ) < minDistance := by
    rw [minDistance]
    norm_num
  rw [dist2_resolvePair_eq, if_pos ⟨h2, h1⟩]
  refine ⟨?_, ?_, ?_, ?_, ?_⟩
  · rw [dist2]
    apply sqrt_of_mul_self _ _ hp0
    field_simp
    nlinarith [hd2]
  · rw [dist2]
    apply sqrt_of_mul_self _ _ hp0
    field_simp
    nlinarith [hd2]
  · field_simp
    ring
  · field_simp
    ring
  · rw [dist2]
    apply sqrt_of_mul_self _ _ (le_of_lt hm0)
    field_simp
    nlinarith [hd2, hm0]

theorem resolvePair_far (a b : ℝ × ℝ) (h : minDistance ≤ dist2 a b) :
    resolvePair a b = (a, b) := by
  rw [dist2_resolvePair_eq, if_neg]
  intro hc
  exact absurd hc.1 (not_lt.mpr h)

theorem resolvePair_A : resolvePair ((0 : ℝ), (0 : ℝ)) ((60 : ℝ), (0 : ℝ)) =
    (((-20 : ℝ), (0 : ℝ)), ((80 : ℝ), (0 : ℝ))) := by
  have hd : Real.sqrt (((60 : ℝ) - 0) * (60 - 0) + (0 - 0) * (0 - 0)) = 60 :=
    sqrt_of_mul_self _ _ (by norm_num) (by norm_num)
  simp only [resolvePair, hd, minDistance]
  norm_num

theorem resolvePair_B : resolvePair ((-20 : ℝ), (0 : ℝ)) ((120 : ℝ), (0 : ℝ)) =
    (((-20 : ℝ), (0 : ℝ)), ((120 : ℝ), (0 : ℝ))) := by
  have hd : Real.sqrt (((120 : ℝ) - -20) * (120 - -20) + (0 - 0) * (0 - 0)) = 140 :=
    sqrt_of_mul_self _ _ (by norm_num) (by norm_num)
  simp only [resolvePair, hd, minDistance]
  norm_num

theorem resolvePair_C : resolvePair ((80 : ℝ), (0 : ℝ)) ((120 : ℝ), (0 : ℝ)) =
    (((50 : ℝ), (0 : ℝ)), ((150 : ℝ), (0 : ℝ))) := by
  have hd : Real.sqrt (((120 : ℝ) - 80) * (120 - 80) + (0 - 0) * (0 - 0)) = 40 :=
    sqrt_of_mul_self _ _ (by norm_num) (by norm_num)
  simp only [resolvePair, hd, minDistance]
  norm_num

/-- The single collinear pass `[0, 60, 120] ↦ [-20, 50, 150]` (x only). -/
theorem resolveCollisions_collinear :
    resolveCollisions [((0 : ℝ), (0 : ℝ)), (60, 0), (120, 0)] =
      [(-20, 0), (50, 0), (150, 0)] := by
  have hpl : pairsList 3 = [(0, 1), (0, 2), (1, 2)] := rfl
  rw [resolveCollisions]
  rw [show ([((0 : ℝ), (0 : ℝ)), (60, 0), (120, 0)]).length = 3 from rfl, hpl]
  simp only [List.foldl_cons, List.foldl_nil]
  have s1 : stepPair [((0 : ℝ), (0 : ℝ)), (60, 0), (120, 0)] (0, 1) =
      [(-20, 0), (80, 0), (120, 0)] := by
    simp only [stepPair, List.get?, resolvePair_A, List.set]
  rw [s1]
  have s2 : stepPair [((-20 : ℝ), (0 : ℝ)), (80, 0), (120, 0)] (0, 2) =
      [(-20, 0), (80, 0), (120, 0)] := by
    simp only [stepPair, List.get?, resolvePair_B, List.set]
  rw [s2]
  simp only [stepPair, List.get?, resolvePair_C, List.set]

/-- C6, counterexample. Two coincident nodes are at distance `0 < 100`,
below the threshold, yet the pass leaves both in place (the code's
`distance > 0` guard skips them), so it is not true that every pair below
the threshold is pushed apart by half the deficit each. -/
theorem coincident_pair_not_pushed :
    resolveCollisions [((0 : ℝ), (0 : ℝ)), ((0 : ℝ), (0 : ℝ))] =
      [((0 : ℝ), (0 : ℝ)), ((0 : ℝ), (0 : ℝ))]
    ∧ dist2 ((0 : ℝ), (0 : ℝ)) ((0 : ℝ), (0 : ℝ)) < minDistance := by
  have hd : dist2 ((0 : ℝ), (0 : ℝ)) ((0 : ℝ), (0 : ℝ)) = 0 := by
    rw [dist2]
    simpa using Real.sqrt_zero
  constructor
  · have hpl : pairsList 2 = [(0, 1)] := rfl
    rw [resolveCollisions,
      show ([((0 : ℝ), (0 : ℝ)), ((0 : ℝ), (0 : ℝ))]).length = 2 from rfl, hpl]
    simp only [List.foldl_cons, List.foldl_nil]
    simp only [stepPair, List.get?, coincident_pair_not_pushed_aux _ _ hd, List.set]
  · rw [hd, minDistance]
    norm_num

/-- C6, amended. The post-drag collision resolution is one pass over all
index pairs `i < j`; a pair at distance strictly between `0` and the 100 px
threshold is pushed apart symmetrically along the line connecting the
centers, each node moving half the deficit (ending exactly at the
threshold), while a coincident pair (distance `0`) is skipped and a pair at
or beyond the threshold is untouched; the pass is not iterated to a fixed
point and can leave residual overlaps. -/
theorem collision_pass_single_sweep :
    (∀ ps : List (ℝ × ℝ), resolveCollisions ps = (pairsList ps.length).foldl stepPair ps)
    ∧ (∀ a b : ℝ × ℝ, dist2 a b = 0 → resolvePair a b = (a, b))
    ∧ (∀ a b : ℝ × ℝ, minDistance ≤ dist2 a b → resolvePair a b = (a, b))
    ∧ (∀ a b : ℝ × ℝ, 0 < dist2 a b → dist2 a b < minDistance →
        dist2 (resolvePair a b).1 a = (minDistance - dist2 a b) / 2
        ∧ dist2 (resolvePair a b).2 b = (minDistance - dist2 a b) / 2
        ∧ (resolvePair a b).2.1 - (resolvePair a b).1.1 =
            (b.1 - a.1) * (minDistance / dist2 a b)
        ∧ (resolvePair a b).2.2 - (resolvePair a b).1.2 =
            (b.2 - a.2) * (minDistance / dist2 a b)
        ∧ dist2 (resolvePair a b).1 (resolvePair a b).2 = minDistance)
    ∧ (resolveCollisions [((0 : ℝ), (0 : ℝ)), (60, 0), (120, 0)] =
          [(-20, 0), (50, 0), (150, 0)]
        ∧ dist2 ((-20 : ℝ), (0 : ℝ)) ((50 : ℝ), (0 : ℝ)) < minDistance) := by
  refine ⟨fun ps => rfl, coincident_pair_not_pushed_aux, resolvePair_far,
    resolvePair_push, resolveCollisions_collinear, ?_⟩
  have hd : dist2 ((-20 : ℝ), (0 : ℝ)) ((50 : ℝ), (0 : ℝ)) = 70 := by
    rw [dist2]
    exact sqrt_of_mul_self _ _ (by norm_num) (by norm_num)
  rw [hd, minDistance]
  norm_num

/-- Witness for `collision_pass_single_sweep`: the pair `(0,0)`, `(60,0)`
at distance 60 is pushed apart by 20 each to distance exactly 100; a
coincident pair and a pair at distance 140 are untouched. -/
theorem collision_pass_single_sweep_witness :
    dist2 (resolvePair ((0 : ℝ), (0 : ℝ)) ((60 : ℝ), (0 : ℝ))).1 ((0 : ℝ), (0 : ℝ)) =
      (minDistance - dist2 ((0 : ℝ), (0 : ℝ)) ((60 : ℝ), (0 : ℝ))) / 2
    ∧ dist2 (resolvePair ((0 : ℝ), (0 : ℝ)) ((60 : ℝ), (0 : ℝ))).1
        (resolvePair ((0 : ℝ), (0 : ℝ)) ((60 : ℝ), (0 : ℝ))).2 = minDistance
    ∧ resolvePair ((0 : ℝ), (0 : ℝ)) ((0 : ℝ), (0 : ℝ)) = ((0, 0), (0, 0))
    ∧ resolvePair ((-20 : ℝ), (0 : ℝ)) ((120 : ℝ), (0 : ℝ)) = ((-20, 0), (120, 0)) := by
  have hd : dist2 ((0 : ℝ), (0 : ℝ)) ((60 : ℝ), (0 : ℝ)) = 60 := by
    rw [dist2]
    exact sqrt_of_mul_self _ _ (by norm_num) (by norm_num)
  have hd0 : dist2 ((0 : ℝ), (0 : ℝ)) ((0 : ℝ), (0 : ℝ)) = 0 := by
    rw [dist2]
    simpa using Real.sqrt_zero
  have hd140 : dist2 ((-20 : ℝ), (0 : ℝ)) ((120 : ℝ), (0 : ℝ)) = 140 := by
    rw [dist2]
    exact sqrt_of_mul_self _ _ (by norm_num) (by norm_num)
  have h := collision_pass_single_sweep
  refine ⟨?_, ?_, ?_, ?_⟩
  · exact (h.2.2.2.1 (0, 0) (60, 0) (by rw [hd]; norm_num)
      (by rw [hd, minDistance]; norm_num)).1
  · exact (h.2.2.2.1 (0, 0) (60, 0) (by rw [hd]; norm_num)
      (by rw [hd, minDistance]; norm_num)).2.2.2.2
  · exact h.2.1 (0, 0) (0, 0) hd0
  · exact h.2.2.1 (-20, 0) (120, 0) (by rw [hd140, minDistance]; norm_num)

/-! 2D ReactFlow layout (`convertTreeToReactFlow`/`processNode`): leaves get
x slots left-to-right in visitation order, internal nodes the average of
their children's x, with ids `node-k` modelled by the counter value `k`. -/

namespace RF2D

mutual
/-- `computeDepth`: 1 for a leaf, else 1 + the children's maximum. -/
def computeDepth : KnowledgeNode → ℕ
  | n => if n.children.isEmpty then 1 else 1 + depthMaxList n.children
termination_by n => 2 * size n
decreasing_by
  simp only [size_eq]
  omega

/-- `Math.max(...children.map(computeDepth))` as a fold. -/
def depthMaxList : List KnowledgeNode → ℕ
  | [] => 0
  | c :: rest => max (computeDepth c) (depthMaxList rest)
termination_by l => 2 * sizeList l + 1
decreasing_by
  · simp only [sizeList_cons, size_eq]
    omega
  · simp only [sizeList_cons, size_eq]
    omega
end

mutual
/-- `leafCount`: 1 for a leaf, else the sum over the children. -/
def leafCount : KnowledgeNode → ℕ
  | n => if n.children.isEmpty then 1 else leafCountList n.children
termination_by n => 2 * size n
decreasing_by
  simp only [size_eq]
  omega

/-- Leaf count of a forest. -/
def leafCountList : List KnowledgeNode → ℕ
  | [] => 0
  | c :: rest => leafCount c + leafCountList rest
termination_by l => 2 * sizeList l + 1
decreasing_by
  · simp only [sizeList_cons, size_eq]
    omega
  · simp only [sizeList_cons, size_eq]
    omega
end

/-- `vGap` (px). -/
def vGap : ℚ := 120

/-- `hPadding` (px). -/
def hPadding : ℚ := 50

/-- `usableWidth = max(600, totalLeaves * 100)`. -/
def usableWidth (totalLeaves : ℕ) : ℚ := max 600 (totalLeaves * 100)

/-- `stepX = totalLeaves > 1 ? usableWidth / (totalLeaves - 1) : 0`. -/
def stepX (totalLeaves : ℕ) : ℚ :=
  if 1 < totalLeaves then usableWidth totalLeaves / ((totalLeaves : ℚ) - 1) else 0

/-- The x slot of the `j`-th visited leaf:
`hPadding + (totalLeaves === 1 ? usableWidth / 2 : leafIndex * stepX)`. -/
def slotX (totalLeaves : ℕ) (j : ℕ) : ℚ :=
  hPadding + (if totalLeaves = 1 then usableWidth totalLeaves / 2
    else (j : ℚ) * stepX totalLeaves)

/-- A ReactFlow node as pushed by `processNode` (its `data` fields inlined). -/
structure RFNode : Type where
  id : ℕ
  x : ℚ
  y : ℚ
  label : String
  weight : Option ℚ
  radius : ℚ
  childrenCount : ℕ

/-- A ReactFlow edge as pushed by `processNode` (its `data` weights inlined). -/
structure RFEdge : Type where
  source : ℕ
  target : ℕ
  sourceWeight : ℚ
  targetWeight : ℚ

/-- The mutable state of `convertTreeToReactFlow`: the two `Map`s (most
recent `set` at the front), the `nodes` and `edges` arrays and the two
counters. -/
structure RFState : Type where
  nodeMap : List (ℕ × ℚ × ℚ × ℕ)
  nodeWeightMap : List (ℕ × ℚ)
  nodes : List RFNode
  edges : List RFEdge
  leafIndex : ℕ
  nodeId : ℕ

/-- JS `Map.get`: the most recently set value for the key, if any. -/
def mapGet {ν : Type} (m : List (ℕ × ν)) (k : ℕ) : Option ν :=
  (m.find? (fun p => p.1 == k)).map Prod.snd

/-- JS `w || 1`: `1` for `undefined` and `0` (and `NaN`). -/
def jsOrOne (w : Option ℚ) : ℚ :=
  match w with
  | none => 1
  | some w => if w = 0 then 1 else w

/-- The x stored for an id, with JS's non-null assertion modelled by a
default of `0` (the invariant proof shows every looked-up id is present). -/
def xD (m : List (ℕ × ℚ × ℚ × ℕ)) (k : ℕ) : ℚ :=
  ((mapGet m k).getD (0, 0, 0)).1

mutual
/-- `processNode(node, depth, parentId)`: reserve the id, position the node
(leaf slot or children average, children processed first), record position
and weight, push the node, then push the edge to the parent. -/
def processNode (tl dc : ℕ) (node : KnowledgeNode) (depth : ℕ)
    (parentId : Option ℕ) (st : RFState) : ℕ × RFState :=
  let currentNodeId := st.nodeId
  let st0 : RFState := { st with nodeId := st.nodeId + 1 }
  let xst : ℚ × RFState :=
    if node.children.isEmpty then
      (slotX tl st0.leafIndex, { st0 with leafIndex := st0.leafIndex + 1 })
    else
      let r := processChildren tl dc node.children (depth + 1) currentNodeId st0
      (((r.1.map (fun cid => xD r.2.nodeMap cid)).sum / (r.1.length : ℚ)), r.2)
  let x := xst.1
  let st1 := xst.2
  let y : ℚ := 3 * ((dc : ℚ) - 1 - (depth : ℚ)) * vGap + vGap / 2
  let st2 : RFState :=
    { st1 with
      nodeMap := (currentNodeId, x, y, depth) :: st1.nodeMap
      nodeWeightMap := (currentNodeId, jsOrOne node.weight) :: st1.nodeWeightMap
      nodes := st1.nodes ++
        [⟨currentNodeId, x, y, node.node, node.weight,
          weightToRadius node.weight, node.children.length⟩] }
  match parentId with
  | some p =>
    (currentNodeId,
      { st2 with edges := st2.edges ++
          [⟨p, currentNodeId, jsOrOne (mapGet st2.nodeWeightMap p),
            jsOrOne node.weight⟩] })
  | none => (currentNodeId, st2)
termination_by 2 * size node
decreasing_by
  simp only [size_eq]
  omega

/-- `children.map(child => processNode(child, depth + 1, currentNodeId))`:
the id list and the threaded state. -/
def processChildren (tl dc : ℕ) (cs : List KnowledgeNode) (depth : ℕ)
    (parentId : ℕ) (st : RFState) : List ℕ × RFState :=
  match cs with
  | [] => ([], st)
  | c :: rest =>
    let r := processNode tl dc c depth (some parentId) st
    let rr := processChildren tl dc rest depth parentId r.2
    (r.1 :: rr.1, rr.2)
termination_by 2 * sizeList cs + 1
decreasing_by
  · simp only [sizeList_cons, size_eq]
    omega
  · simp only [sizeList_cons, size_eq]
    omega
end

/-- `convertTreeToReactFlow(root)`. -/
def convertTreeToReactFlow (root : KnowledgeNode) : RFState :=
  (processNode (leafCount root) (computeDepth root) root 0 none
    ⟨[], [], [], [], 0, 0⟩).2

end RF2D

theorem rf_mapGet_cons_self {ν : Type} (m : List (ℕ × ν)) (p : ℕ × ν) :
    RF2D.mapGet (p :: m) p.1 = some p.2 := by
  simp [RF2D.mapGet, List.find?_cons]

theorem rf_mapGet_cons_ne {ν : Type} (m : List (ℕ × ν)) (p : ℕ × ν) (k : ℕ)
    (h : p.1 ≠ k) : RF2D.mapGet (p :: m) k = RF2D.mapGet m k := by
  simp [RF2D.mapGet, List.find?_cons, h]

theorem rf_mapGet_append_of_ne {ν : Type} (new old : List (ℕ × ν)) (k : ℕ)
    (h : ∀ p ∈ new, p.1 ≠ k) :
    RF2D.mapGet (new ++ old) k = RF2D.mapGet old k := by
  induction new with
  | nil => rfl
  | cons p rest ih =>
    rw [List.cons_append, rf_mapGet_cons_ne _ _ _ (h p (by simp))]
    exact ih (fun p hp => h p (by simp [hp]))

/-- Correctness of one pushed node `nd` against a layout state `st`: the
position map holds `nd`'s coordinates under its id, the edges with source
`nd.id` are exactly as many as `nd`'s children, and if there are any,
`nd.x` is the arithmetic mean of the x stored for their targets. -/
def NodeOK (st : RF2D.RFState) (nd : RF2D.RFNode) : Prop :=
  (∃ d, RF2D.mapGet st.nodeMap nd.id = some (nd.x, nd.y, d)) ∧
  (st.edges.filter (fun e => e.source = nd.id)).length = nd.childrenCount ∧
  (0 < nd.childrenCount →
    nd.x * (nd.childrenCount : ℚ) =
      ((st.edges.filter (fun e => e.source = nd.id)).map
        (fun e => RF2D.xD st.nodeMap e.target)).sum)

/-- Extending the state with fresh map entries (keys distinct from `nd.id`
and from the targets of `nd.id`'s edges) and fresh edges (sources distinct
from `nd.id`) preserves `NodeOK`. -/
theorem rf_NodeOK_extend (stA stB : RF2D.RFState) (nd : RF2D.RFNode)
    (addMap : List (ℕ × ℚ × ℚ × ℕ)) (addE : List RF2D.RFEdge)
    (hmap : stB.nodeMap = addMap ++ stA.nodeMap)
    (hedge : stB.edges = stA.edges ++ addE)
    (hkeyq : ∀ p ∈ addMap, p.1 ≠ nd.id)
    (hkeyt : ∀ p ∈ addMap, ∀ e ∈ stA.edges, e.source = nd.id → p.1 ≠ e.target)
    (hsrc : ∀ e ∈ addE, e.source ≠ nd.id)
    (h : NodeOK stA nd) : NodeOK stB nd := by
  obtain ⟨⟨d, hxy⟩, hlen, hmean⟩ := h
  have hfe : stB.edges.filter (fun e => e.source = nd.id) =
      stA.edges.filter (fun e => e.source = nd.id) := by
    rw [hedge, List.filter_append]
    have hnil : addE.filter (fun e => e.source = nd.id) = [] :=
      List.filter_eq_nil_iff.mpr (fun e he => by simpa using hsrc e he)
    rw [hnil, List.append_nil]
  refine ⟨⟨d, ?_⟩, ?_, ?_⟩
  · rw [hmap, rf_mapGet_append_of_ne _ _ _ hkeyq]
    exact hxy
  · rw [hfe]
    exact hlen
  · intro hpos
    rw [hfe, hmean hpos]
    apply congrArg
    apply List.map_congr_left
    intro e he
    have heA : e ∈ stA.edges := List.mem_of_mem_filter he
    have heq : e.source = nd.id := by simpa using List.of_mem_filter he
    rw [RF2D.xD, RF2D.xD, hmap,
      rf_mapGet_append_of_ne _ _ _ (fun p hp => hkeyt p hp e heA heq)]

theorem rf_leafCountList_nil : RF2D.leafCountList [] = 0 := by
  rw [RF2D.leafCountList]

theorem rf_leafCountList_cons (c : KnowledgeNode) (rest : List KnowledgeNode) :
    RF2D.leafCountList (c :: rest) =
      RF2D.leafCount c + RF2D.leafCountList rest := by
  rw [RF2D.leafCountList]

theorem rf_leafCount_eq (n : KnowledgeNode) :
    RF2D.leafCount n =
      if n.children.isEmpty then 1 else RF2D.leafCountList n.children := by
  rw [RF2D.leafCount]

theorem rf_xD_cons_ne (m : List (ℕ × ℚ × ℚ × ℕ)) (p : ℕ × ℚ × ℚ × ℕ) (k : ℕ)
    (h : p.1 ≠ k) : RF2D.xD (p :: m) k = RF2D.xD m k := by
  rw [RF2D.xD, RF2D.xD, rf_mapGet_cons_ne _ _ _ h]

/-- The y coordinate assigned at `depth`:
`3 * (depthCount - 1 - depth) * vGap + vGap / 2`. -/
def rfY (dc depth : ℕ) : ℚ :=
  3 * ((dc : ℚ) - 1 - (depth : ℚ)) * RF2D.vGap + RF2D.vGap / 2

/-- The state after `nodeId++` reserved the current id. -/
def rfSeed (st : RF2D.RFState) : RF2D.RFState :=
  ⟨st.nodeMap, st.nodeWeightMap, st.nodes, st.edges, st.leafIndex,
    st.nodeId + 1⟩

/-- The edges pushed by the `if (parentId)` block: one edge from the parent
to the current node, or none at the root. -/
def rfPedge (pid : Option ℕ) (cid : ℕ) (w : Option ℚ)
    (wm : List (ℕ × ℚ)) : List RF2D.RFEdge :=
  match pid with
  | some p => [⟨p, cid, RF2D.jsOrOne (RF2D.mapGet wm p), RF2D.jsOrOne w⟩]
  | none => []

/-- The x of an internal node from a `processChildren` result: the mean of
the x stored for the returned child ids. -/
def rfX (r : List ℕ × RF2D.RFState) : ℚ :=
  (r.1.map (fun cid => RF2D.xD r.2.nodeMap cid)).sum / (r.1.length : ℚ)

theorem rfPedge_mem (pid : Option ℕ) (cid : ℕ) (w : Option ℚ)
    (wm : List (ℕ × ℚ)) :
    ∀ e ∈ rfPedge pid cid w wm, e.target = cid ∧ pid = some e.source := by
  cases pid <;> simp [rfPedge]

theorem rfPedge_filter_map (pid : Option ℕ) (cid : ℕ) (w : Option ℚ)
    (wm : List (ℕ × ℚ)) (q : ℕ) :
    ((rfPedge pid cid w wm).filter (fun e => e.source = q)).map
      (fun e => e.target) = if pid = some q then [cid] else [] := by
  cases pid with
  | none => simp [rfPedge]
  | some p =>
    by_cases hpq : p = q
    · subst hpq
      simp [rfPedge]
    · simp [rfPedge, hpq]

/-- One unfolding of `processNode` at a leaf. -/
theorem rf_processNode_leaf (tl dc : ℕ) (n : KnowledgeNode) (depth : ℕ)
    (pid : Option ℕ) (st : RF2D.RFState) (hcs : n.children = []) :
    RF2D.processNode tl dc n depth pid st =
      (st.nodeId,
        ⟨(st.nodeId, RF2D.slotX tl st.leafIndex, rfY dc depth, depth) ::
            st.nodeMap,
          (st.nodeId, RF2D.jsOrOne n.weight) :: st.nodeWeightMap,
          st.nodes ++
            [⟨st.nodeId, RF2D.slotX tl st.leafIndex, rfY dc depth, n.node,
              n.weight, RF2D.weightToRadius n.weight, 0⟩],
          st.edges ++ rfPedge pid st.nodeId n.weight
            ((st.nodeId, RF2D.jsOrOne n.weight) :: st.nodeWeightMap),
          st.leafIndex + 1, st.nodeId + 1⟩) := by
  cases pid with
  | none =>
    rw [RF2D.processNode.eq_def, hcs]
    simp only [rfPedge, List.append_nil]
    rfl
  | some p =>
    rw [RF2D.processNode.eq_def, hcs]
    rfl

/-- One unfolding of `processNode` at an internal node, phrased through the
`processChildren` result `r`. -/
theorem rf_processNode_internal (tl dc : ℕ) (n : KnowledgeNode) (depth : ℕ)
    (pid : Option ℕ) (st : RF2D.RFState) (c : KnowledgeNode)
    (cl : List KnowledgeNode) (hcs : n.children = c :: cl)
    (r : List ℕ × RF2D.RFState)
    (hr : r = RF2D.processChildren tl dc (c :: cl) (depth + 1) st.nodeId
      (rfSeed st)) :
    RF2D.processNode tl dc n depth pid st =
      (st.nodeId,
        ⟨(st.nodeId, rfX r, rfY dc depth, depth) :: r.2.nodeMap,
          (st.nodeId, RF2D.jsOrOne n.weight) :: r.2.nodeWeightMap,
          r.2.nodes ++
            [⟨st.nodeId, rfX r, rfY dc depth, n.node, n.weight,
              RF2D.weightToRadius n.weight, (c :: cl).length⟩],
          r.2.edges ++ rfPedge pid st.nodeId n.weight
            ((st.nodeId, RF2D.jsOrOne n.weight) :: r.2.nodeWeightMap),
          r.2.leafIndex, r.2.nodeId⟩) := by
  subst hr
  cases pid with
  | none =>
    rw [RF2D.processNode.eq_def, hcs]
    simp only [rfPedge, List.append_nil]
    rfl
  | some p =>
    rw [RF2D.processNode.eq_def, hcs]
    rfl

mutual
/-- What one `processNode` call does: it returns the reserved id (the
incoming counter), advances the id counter by the subtree size and the leaf
cursor by the subtree leaf count, appends the subtree's nodes, prepends its
map entries and appends its edges (all ids drawn from the consumed counter
range), gives the new leaves the consecutive x-slots from the incoming leaf
cursor, sends exactly one edge from the parent to the subtree (targeting
its root), and leaves every appended node `NodeOK` in the final state. -/
theorem rf_processNode_spec (tl dc : ℕ) (n : KnowledgeNode) (depth : ℕ)
    (pid : Option ℕ) (st : RF2D.RFState)
    (hkeys : ∀ p ∈ st.nodeMap, p.1 < st.nodeId)
    (hsrc : ∀ e ∈ st.edges, e.source < st.nodeId)
    (hpid : ∀ p, pid = some p → p < st.nodeId) :
    ∃ nN nM nE,
      (RF2D.processNode tl dc n depth pid st).1 = st.nodeId ∧
      (RF2D.processNode tl dc n depth pid st).2.nodeId = st.nodeId + size n ∧
      (RF2D.processNode tl dc n depth pid st).2.leafIndex
        = st.leafIndex + RF2D.leafCount n ∧
      (RF2D.processNode tl dc n depth pid st).2.nodes = st.nodes ++ nN ∧
      (RF2D.processNode tl dc n depth pid st).2.nodeMap = nM ++ st.nodeMap ∧
      (RF2D.processNode tl dc n depth pid st).2.edges = st.edges ++ nE ∧
      (nN.filter (fun nd => nd.childrenCount = 0)).map (fun nd => nd.x)
        = (List.range (RF2D.leafCount n)).map
            (fun k => RF2D.slotX tl (st.leafIndex + k)) ∧
      (∀ p ∈ nM, st.nodeId ≤ p.1 ∧ p.1 < st.nodeId + size n) ∧
      (∀ nd ∈ nN, st.nodeId ≤ nd.id ∧ nd.id < st.nodeId + size n) ∧
      (∀ e ∈ nE, (st.nodeId ≤ e.target ∧ e.target < st.nodeId + size n) ∧
        ((st.nodeId ≤ e.source ∧ e.source < st.nodeId + size n)
          ∨ pid = some e.source)) ∧
      (∀ q, q < st.nodeId →
        (nE.filter (fun e => e.source = q)).map (fun e => e.target)
          = if pid = some q then [st.nodeId] else []) ∧
      (∀ nd ∈ nN, NodeOK (RF2D.processNode tl dc n depth pid st).2 nd) := by
  cases hcs : n.children with
  | nil =>
    have hsz : size n = 1 := by
      rw [size_eq, hcs]
      rfl
    have hlc : RF2D.leafCount n = 1 := by
      rw [rf_leafCount_eq, hcs]
      rfl
    have heq := rf_processNode_leaf tl dc n depth pid st hcs
    rw [heq]
    dsimp only
    refine ⟨[⟨st.nodeId, RF2D.slotX tl st.leafIndex, rfY dc depth, n.node,
        n.weight, RF2D.weightToRadius n.weight, 0⟩],
      [(st.nodeId, RF2D.slotX tl st.leafIndex, rfY dc depth, depth)],
      rfPedge pid st.nodeId n.weight
        ((st.nodeId, RF2D.jsOrOne n.weight) :: st.nodeWeightMap),
      rfl, ?_, ?_, rfl, rfl, rfl, ?_, ?_, ?_, ?_, ?_, ?_⟩
    · rw [hsz]
    · rw [hlc]
    · rw [hlc]
      simp [List.range_succ]
    · intro p hp
      rw [List.mem_singleton] at hp
      subst hp
      rw [hsz]
      dsimp only
      omega
    · intro nd hnd
      rw [List.mem_singleton] at hnd
      subst hnd
      rw [hsz]
      dsimp only
      omega
    · intro e he
      obtain ⟨ht, hs⟩ := rfPedge_mem pid st.nodeId n.weight _ e he
      rw [hsz]
      have := hpid e.source hs
      exact ⟨⟨by omega, by omega⟩, Or.inr hs⟩
    · intro q hq
      rw [rfPedge_filter_map]
    · intro nd hnd
      rw [List.mem_singleton] at hnd
      subst hnd
      have h1 : (st.edges.filter (fun e => e.source = st.nodeId)) = [] :=
        List.filter_eq_nil_iff.mpr (fun e he => by
          have := hsrc e he
          simp only [decide_eq_true_eq]
          omega)
      have h2 : ((rfPedge pid st.nodeId n.weight
          ((st.nodeId, RF2D.jsOrOne n.weight) :: st.nodeWeightMap)).filter
            (fun e => e.source = st.nodeId)) = [] :=
        List.filter_eq_nil_iff.mpr (fun e he => by
          obtain ⟨ht, hs⟩ := rfPedge_mem _ _ _ _ e he
          have := hpid e.source hs
          simp only [decide_eq_true_eq]
          omega)
      refine ⟨⟨depth, rf_mapGet_cons_self _ _⟩, ?_, ?_⟩
      · dsimp only
        rw [List.filter_append, h1, h2]
        rfl
      · intro hpos
        exact absurd hpos (lt_irrefl 0)
  | cons c cl =>
    have hsz : size n = 1 + sizeList (c :: cl) := by
      rw [size_eq, hcs]
    have hlc : RF2D.leafCount n = RF2D.leafCountList (c :: cl) := by
      rw [rf_leafCount_eq, hcs]
      rfl
    obtain ⟨cN, cM, cE, hb1, hb2, hb3, hb4, hb5, hb6, hb7, hb8, hb9, hb10,
        hb11, hb12⟩ :=
      rf_processChildren_spec tl dc (c :: cl) (depth + 1) st.nodeId
        (rfSeed st)
        (by
          intro p hp
          dsimp only [rfSeed] at hp ⊢
          have := hkeys p hp
          omega)
        (by
          intro e he
          dsimp only [rfSeed] at he ⊢
          have := hsrc e he
          omega)
        (by
          dsimp only [rfSeed]
          omega)
    set R := RF2D.processChildren tl dc (c :: cl) (depth + 1) st.nodeId
      (rfSeed st) with hR
    have hseedA : (rfSeed st).nodeId = st.nodeId + 1 := rfl
    have hseedB : (rfSeed st).leafIndex = st.leafIndex := rfl
    have hseedC : (rfSeed st).nodes = st.nodes := rfl
    have hseedD : (rfSeed st).nodeMap = st.nodeMap := rfl
    have hseedE : (rfSeed st).edges = st.edges := rfl
    simp only [hseedA, hseedB, hseedC, hseedD, hseedE] at hb2 hb3 hb4 hb5 hb6 hb7 hb8 hb9 hb10 hb11
    have heq := rf_processNode_internal tl dc n depth pid st c cl hcs R hR
    rw [heq]
    dsimp only
    refine ⟨cN ++ [⟨st.nodeId, rfX R, rfY dc depth, n.node, n.weight,
        RF2D.weightToRadius n.weight, (c :: cl).length⟩],
      (st.nodeId, rfX R, rfY dc depth, depth) :: cM,
      cE ++ rfPedge pid st.nodeId n.weight
        ((st.nodeId, RF2D.jsOrOne n.weight) :: R.2.nodeWeightMap),
      rfl, ?_, ?_, ?_, ?_, ?_, ?_, ?_, ?_, ?_, ?_, ?_⟩
    · rw [hb2, hsz]
      omega
    · rw [hb3, hlc]
    · rw [hb4, List.append_assoc]
    · rw [hb5]
      rfl
    · rw [hb6, List.append_assoc]
    · rw [hlc, List.filter_append]
      have hme : ([(⟨st.nodeId, rfX R, rfY dc depth, n.node, n.weight,
          RF2D.weightToRadius n.weight, (c :: cl).length⟩ :
            RF2D.RFNode)].filter (fun nd => nd.childrenCount = 0)) = [] := by
        simp
      rw [hme, List.append_nil, hb7]
    · intro p hp
      rcases List.mem_cons.mp hp with h | h
      · subst h
        dsimp only
        rw [hsz]
        omega
      · have := hb8 p h
        rw [hsz]
        omega
    · intro nd hnd
      rcases List.mem_append.mp hnd with h | h
      · have := hb9 nd h
        rw [hsz]
        omega
      · rw [List.mem_singleton] at h
        subst h
        dsimp only
        rw [hsz]
        omega
    · intro e he
      rcases List.mem_append.mp he with h | h
      · obtain ⟨⟨ht1, ht2⟩, hs'⟩ := hb10 e h
        rw [hsz]
        refine ⟨⟨by omega, by omega⟩, ?_⟩
        rcases hs' with ⟨h1, h2⟩ | h1
        · exact Or.inl ⟨by omega, by omega⟩
        · exact Or.inl ⟨by omega, by omega⟩
      · obtain ⟨ht, hs⟩ := rfPedge_mem _ _ _ _ e h
        have := hpid e.source hs
        rw [hsz]
        exact ⟨⟨by omega, by omega⟩, Or.inr hs⟩
    · intro q hq
      rw [List.filter_append, List.map_append, hb11 q (by omega),
        rfPedge_filter_map, if_neg (by omega : ¬q = st.nodeId)]
      simp
    · intro nd hnd
      rcases List.mem_append.mp hnd with h | h
      · have hnd9 := hb9 nd h
        refine rf_NodeOK_extend R.2 _ nd
          [(st.nodeId, rfX R, rfY dc depth, depth)]
          (rfPedge pid st.nodeId n.weight
            ((st.nodeId, RF2D.jsOrOne n.weight) :: R.2.nodeWeightMap))
          rfl rfl ?_ ?_ ?_ (hb12 nd h)
        · intro p hp
          rw [List.mem_singleton] at hp
          subst hp
          dsimp only
          omega
        · intro p hp e he hse
          rw [List.mem_singleton] at hp
          subst hp
          dsimp only
          rw [hb6] at he
          rcases List.mem_append.mp he with h2 | h2
          · have := hsrc e h2
            omega
          · have := (hb10 e h2).1
            omega
        · intro e he
          obtain ⟨ht, hs⟩ := rfPedge_mem _ _ _ _ e he
          have := hpid e.source hs
          omega
      · rw [List.mem_singleton] at h
        subst h
        have h1 : (st.edges.filter (fun e => e.source = st.nodeId)) = [] :=
          List.filter_eq_nil_iff.mpr (fun e he => by
            have := hsrc e he
            simp only [decide_eq_true_eq]
            omega)
        have h2 : ((rfPedge pid st.nodeId n.weight
            ((st.nodeId, RF2D.jsOrOne n.weight) :: R.2.nodeWeightMap)).filter
              (fun e => e.source = st.nodeId)) = [] :=
          List.filter_eq_nil_iff.mpr (fun e he => by
            obtain ⟨ht, hs⟩ := rfPedge_mem _ _ _ _ e he
            have := hpid e.source hs
            simp only [decide_eq_true_eq]
            omega)
        have hfil : ((R.2.edges ++ rfPedge pid st.nodeId n.weight
            ((st.nodeId, RF2D.jsOrOne n.weight) :: R.2.nodeWeightMap)).filter
              (fun e => e.source = st.nodeId))
            = cE.filter (fun e => e.source = st.nodeId) := by
          rw [List.filter_append, h2, List.append_nil, hb6,
            List.filter_append, h1, List.nil_append]
        have hmapt : (cE.filter (fun e => e.source = st.nodeId)).map
            (fun e => e.target) = R.1 := by
          have h3 := hb11 st.nodeId (by omega)
          rw [if_pos rfl] at h3
          exact h3
        refine ⟨⟨depth, rf_mapGet_cons_self _ _⟩, ?_, ?_⟩
        · dsimp only
          rw [hfil, ← hb1, ← hmapt, List.length_map]
        · intro hpos
          dsimp only at hpos ⊢
          rw [hfil]
          have hxd : (cE.filter (fun e => e.source = st.nodeId)).map
              (fun e => RF2D.xD ((st.nodeId, rfX R, rfY dc depth, depth) ::
                R.2.nodeMap) e.target)
              = (cE.filter (fun e => e.source = st.nodeId)).map
                (fun e => RF2D.xD R.2.nodeMap e.target) := by
            apply List.map_congr_left
            intro e he
            have heC : e ∈ cE := List.mem_of_mem_filter he
            have := (hb10 e heC).1
            exact rf_xD_cons_ne _ _ _ (by omega)
          rw [hxd]
          have hsum : ((cE.filter (fun e => e.source = st.nodeId)).map
              (fun e => RF2D.xD R.2.nodeMap e.target)).sum
              = (((cE.filter (fun e => e.source = st.nodeId)).map
                  (fun e => e.target)).map
                    (fun cid => RF2D.xD R.2.nodeMap cid)).sum := by
            rw [List.map_map]
            rfl
          rw [hsum, hmapt]
          simp only [rfX]
          rw [← hb1, div_mul_cancel₀]
          rw [hb1]
          exact Nat.cast_ne_zero.mpr (by simp)
  termination_by 2 * size n
  decreasing_by
    simp only [size_eq, hcs, sizeList_cons]
    omega

/-- Forest version of `rf_processNode_spec`: `processChildren` threads the
state through the children, returning their root ids in order. -/
theorem rf_processChildren_spec (tl dc : ℕ) (cs : List KnowledgeNode)
    (depth : ℕ) (pa : ℕ) (st : RF2D.RFState)
    (hkeys : ∀ p ∈ st.nodeMap, p.1 < st.nodeId)
    (hsrc : ∀ e ∈ st.edges, e.source < st.nodeId)
    (hpa : pa < st.nodeId) :
    ∃ nN nM nE,
      (RF2D.processChildren tl dc cs depth pa st).1.length = cs.length ∧
      (RF2D.processChildren tl dc cs depth pa st).2.nodeId
        = st.nodeId + sizeList cs ∧
      (RF2D.processChildren tl dc cs depth pa st).2.leafIndex
        = st.leafIndex + RF2D.leafCountList cs ∧
      (RF2D.processChildren tl dc cs depth pa st).2.nodes = st.nodes ++ nN ∧
      (RF2D.processChildren tl dc cs depth pa st).2.nodeMap
        = nM ++ st.nodeMap ∧
      (RF2D.processChildren tl dc cs depth pa st).2.edges = st.edges ++ nE ∧
      (nN.filter (fun nd => nd.childrenCount = 0)).map (fun nd => nd.x)
        = (List.range (RF2D.leafCountList cs)).map
            (fun k => RF2D.slotX tl (st.leafIndex + k)) ∧
      (∀ p ∈ nM, st.nodeId ≤ p.1 ∧ p.1 < st.nodeId + sizeList cs) ∧
      (∀ nd ∈ nN, st.nodeId ≤ nd.id ∧ nd.id < st.nodeId + sizeList cs) ∧
      (∀ e ∈ nE, (st.nodeId ≤ e.target ∧ e.target < st.nodeId + sizeList cs)
        ∧ ((st.nodeId ≤ e.source ∧ e.source < st.nodeId + sizeList cs)
          ∨ e.source = pa)) ∧
      (∀ q, q < st.nodeId →
        (nE.filter (fun e => e.source = q)).map (fun e => e.target)
          = if q = pa then (RF2D.processChildren tl dc cs depth pa st).1
            else []) ∧
      (∀ nd ∈ nN,
        NodeOK (RF2D.processChildren tl dc cs depth pa st).2 nd) := by
  match cs with
  | [] =>
    have heq : RF2D.processChildren tl dc [] depth pa st = ([], st) := by
      rw [RF2D.processChildren.eq_def]
    rw [heq]
    refine ⟨[], [], [], rfl, by simp, by simp [rf_leafCountList_nil],
      by simp, rfl, by simp, by simp [rf_leafCountList_nil], by simp,
      by simp, by simp, ?_, by simp⟩
    intro q hq
    simp [List.filter_nil]
  | c :: rest =>
    have heq : RF2D.processChildren tl dc (c :: rest) depth pa st =
        ((RF2D.processNode tl dc c depth (some pa) st).1 ::
          (RF2D.processChildren tl dc rest depth pa
            (RF2D.processNode tl dc c depth (some pa) st).2).1,
         (RF2D.processChildren tl dc rest depth pa
           (RF2D.processNode tl dc c depth (some pa) st).2).2) := by
      rw [RF2D.processChildren.eq_def]
    obtain ⟨aN, aM, aE, ha1, ha2, ha3, ha4, ha5, ha6, ha7, ha8, ha9, ha10,
        ha11, ha12⟩ :=
      rf_processNode_spec tl dc c depth (some pa) st hkeys hsrc
        (fun p hp => Option.some.inj hp ▸ hpa)
    set A := RF2D.processNode tl dc c depth (some pa) st with hA
    have hk2 : ∀ p ∈ A.2.nodeMap, p.1 < A.2.nodeId := by
      rw [ha5, ha2]
      intro p hp
      rcases List.mem_append.mp hp with h | h
      · have := ha8 p h
        omega
      · have := hkeys p h
        omega
    have hs2 : ∀ e ∈ A.2.edges, e.source < A.2.nodeId := by
      rw [ha6, ha2]
      intro e he
      rcases List.mem_append.mp he with h | h
      · have := hsrc e h
        omega
      · rcases (ha10 e h).2 with ⟨h1, h2⟩ | h1
        · omega
        · have := Option.some.inj h1
          omega
    have hp2 : pa < A.2.nodeId := by
      rw [ha2]
      omega
    obtain ⟨bN, bM, bE, hb1, hb2, hb3, hb4, hb5, hb6, hb7, hb8, hb9, hb10,
        hb11, hb12⟩ :=
      rf_processChildren_spec tl dc rest depth pa A.2 hk2 hs2 hp2
    set B := RF2D.processChildren tl dc rest depth pa A.2 with hB
    rw [heq]
    dsimp only
    refine ⟨aN ++ bN, bM ++ aM, aE ++ bE, ?_, ?_, ?_, ?_, ?_, ?_, ?_, ?_,
      ?_, ?_, ?_, ?_⟩
    · simp [hb1]
    · rw [hb2, ha2, sizeList_cons]
      omega
    · rw [hb3, ha3, rf_leafCountList_cons]
      omega
    · rw [hb4, ha4, List.append_assoc]
    · rw [hb5, ha5, List.append_assoc]
    · rw [hb6, ha6, List.append_assoc]
    · rw [List.filter_append, List.map_append, ha7, hb7, ha3,
        rf_leafCountList_cons, List.range_add, List.map_append,
        List.map_map]
      congr 1
      apply List.map_congr_left
      intro k _
      simp only [Function.comp_apply]
      congr 1
      omega
    · intro p hp
      rw [sizeList_cons]
      rcases List.mem_append.mp hp with h | h
      · have := hb8 p h
        rw [ha2] at this
        omega
      · have := ha8 p h
        omega
    · intro nd hnd
      rw [sizeList_cons]
      rcases List.mem_append.mp hnd with h | h
      · have := ha9 nd h
        omega
      · have := hb9 nd h
        rw [ha2] at this
        omega
    · intro e he
      rw [sizeList_cons]
      rcases List.mem_append.mp he with h | h
      · obtain ⟨⟨ht1, ht2⟩, hs'⟩ := ha10 e h
        refine ⟨⟨by omega, by omega⟩, ?_⟩
        rcases hs' with ⟨h1, h2⟩ | h1
        · exact Or.inl ⟨by omega, by omega⟩
        · have := Option.some.inj h1
          exact Or.inr (by omega)
      · obtain ⟨⟨ht1, ht2⟩, hs'⟩ := hb10 e h
        rw [ha2] at ht1 ht2 hs'
        refine ⟨⟨by omega, by omega⟩, ?_⟩
        rcases hs' with ⟨h1, h2⟩ | h1
        · exact Or.inl ⟨by omega, by omega⟩
        · exact Or.inr h1
    · intro q hq
      rw [List.filter_append, List.map_append, ha11 q hq,
        hb11 q (by rw [ha2]; have := size_pos c; omega)]
      by_cases hqp : q = pa
      · subst hqp
        rw [if_pos rfl, if_pos rfl, if_pos rfl, ha1]
        rfl
      · rw [if_neg (fun hcon => hqp (Option.some.inj hcon).symm),
          if_neg hqp, if_neg hqp]
        rfl
    · intro nd hnd
      rcases List.mem_append.mp hnd with h | h
      · have hnd9 := ha9 nd h
        refine rf_NodeOK_extend A.2 B.2 nd bM bE hb5 hb6 ?_ ?_ ?_
          (ha12 nd h)
        · intro p hp
          have := hb8 p hp
          rw [ha2] at this
          omega
        · intro p hp e he hse
          rw [ha6] at he
          rcases List.mem_append.mp he with h2 | h2
          · have := hsrc e h2
            omega
          · have h3 := (ha10 e h2).1
            have h4 := hb8 p hp
            rw [ha2] at h4
            omega
        · intro e he
          obtain ⟨⟨ht1, ht2⟩, hs'⟩ := hb10 e he
          rcases hs' with ⟨h1, h2⟩ | h1
          · rw [ha2] at h1
            omega
          · omega
      · exact hb12 nd h
  termination_by 2 * sizeList cs + 1
  decreasing_by
    · simp only [sizeList_cons, size_eq]
      omega
    · simp only [sizeList_cons, size_eq]
      omega
end

/-- C5. In the 2D ReactFlow layout (`convertTreeToReactFlow`): the leaves,
read off the produced nodes array in order (their visitation order), occupy
the consecutive x-slots `slotX tl 0, slotX tl 1, ...`; consecutive slots
differ by the constant `usableWidth / (tl - 1)` when there are at least two
leaves, and a single leaf is centered at `hPadding + usableWidth / 2`;
every produced node's coordinates are recorded in the position map under
its id, every node has exactly one outgoing edge per child, and every node
with children has x equal to the arithmetic mean of its children's stored
x coordinates (children processed before the parent). -/
theorem layout2d_leaf_slots_and_parent_mean (root : KnowledgeNode) :
    (((RF2D.convertTreeToReactFlow root).nodes.filter
        (fun nd => nd.childrenCount = 0)).map (fun nd => nd.x)
      = (List.range (RF2D.leafCount root)).map
          (fun j => RF2D.slotX (RF2D.leafCount root) j))
    ∧ (∀ j : ℕ, 1 < RF2D.leafCount root →
        RF2D.slotX (RF2D.leafCount root) (j + 1)
          - RF2D.slotX (RF2D.leafCount root) j
          = RF2D.usableWidth (RF2D.leafCount root)
            / ((RF2D.leafCount root : ℚ) - 1))
    ∧ (RF2D.leafCount root = 1 →
        RF2D.slotX (RF2D.leafCount root) 0
          = RF2D.hPadding + RF2D.usableWidth (RF2D.leafCount root) / 2)
    ∧ (∀ nd ∈ (RF2D.convertTreeToReactFlow root).nodes,
        ∃ d, RF2D.mapGet (RF2D.convertTreeToReactFlow root).nodeMap nd.id
          = some (nd.x, nd.y, d))
    ∧ (∀ nd ∈ (RF2D.convertTreeToReactFlow root).nodes,
        ((RF2D.convertTreeToReactFlow root).edges.filter
          (fun e => e.source = nd.id)).length = nd.childrenCount)
    ∧ (∀ nd ∈ (RF2D.convertTreeToReactFlow root).nodes,
        0 < nd.childrenCount →
          nd.x * (nd.childrenCount : ℚ)
            = (((RF2D.convertTreeToReactFlow root).edges.filter
                (fun e => e.source = nd.id)).map
                  (fun e => RF2D.xD
                    (RF2D.convertTreeToReactFlow root).nodeMap
                    e.target)).sum) := by
  obtain ⟨nN, nM, nE, h1, h2, h3, h4, h5, h6, h7, h8, h9, h10, h11, h12⟩ :=
    rf_processNode_spec (RF2D.leafCount root) (RF2D.computeDepth root) root 0
      none ⟨[], [], [], [], 0, 0⟩
      (by intro p hp; simp at hp)
      (by intro e he; simp at he)
      (fun p hp => Option.noConfusion hp)
  have hconv : RF2D.convertTreeToReactFlow root
      = (RF2D.processNode (RF2D.leafCount root) (RF2D.computeDepth root) root
          0 none ⟨[], [], [], [], 0, 0⟩).2 := by
    rw [RF2D.convertTreeToReactFlow]
  dsimp only at h4 h7
  rw [hconv]
  have hmem : ∀ nd, nd ∈ (RF2D.processNode (RF2D.leafCount root)
      (RF2D.computeDepth root) root 0 none ⟨[], [], [], [], 0, 0⟩).2.nodes →
      nd ∈ nN := by
    intro nd hm
    rw [h4] at hm
    simpa using hm
  refine ⟨?_, ?_, ?_, ?_, ?_, ?_⟩
  · rw [h4, List.nil_append, h7]
    apply List.map_congr_left
    intro k _
    rw [Nat.zero_add]
  · intro j hj
    have hne : ¬RF2D.leafCount root = 1 := by omega
    simp only [RF2D.slotX, RF2D.stepX, if_neg hne, if_pos hj]
    push_cast
    ring
  · intro h1c
    rw [h1c]
    simp [RF2D.slotX]
  · intro nd hm
    exact (h12 nd (hmem nd hm)).1
  · intro nd hm
    exact (h12 nd (hmem nd hm)).2.1
  · intro nd hm
    exact (h12 nd (hmem nd hm)).2.2

end TalkTree
